import Mathlib

/-!
Verification of the sparse Game of Life step engine
(repository: sam-schorb/game-of-life).

The development shallowly embeds the C++/Metal sources:
  * `MassiveGameOfLife.cpp` (`GameState`, `GameLogic`, the `life_step`
    Metal kernel and its `is_alive` hash-table probe),
  * `gpu_calculator.h` (`ComputeCellStates`, `CalculateNextGeneration`),
  * the Metal host file (`NextPowerOfTwo`, `PopulateHashTable`,
    `EnsureDevice`, `EnsurePipeline`, `EnsureBuffers`, `ResetCaches`,
    `detail::CalculateNextGenerationRaw`).

Unordered sets of coordinates are represented by lists; all statements
about them are membership statements, which is exactly set equality /
set membership for the C++ `unordered_set`s.  Machine integers are
modelled by `Int` / `Nat` with explicit `% 2^32` where the source casts
to unsigned 32-bit (`static_cast<uint32_t>`).
-/

/-- Coordinate pair, `Vec2i` of `game_logic.h` (32-bit signed x, y;
arithmetic on coordinates never overflows in the modelled scenarios, so
plain `Int` is used). -/
structure Vec2i where
  x : Int
  y : Int
deriving DecidableEq, Repr

instance : Add Vec2i where
  add a b := ⟨a.x + b.x, a.y + b.y⟩

theorem Vec2i.add_def (a b : Vec2i) : a + b = ⟨a.x + b.x, a.y + b.y⟩ := rfl

/-- The 8 neighbor offsets, in the order of `kNeighborOffsets` of the
Metal kernel (which coincides with the iteration order of the dy/dx
loops of `GameLogic::countLivingNeighbors` after skipping `(0,0)`). -/
def kNeighborOffsets : List Vec2i :=
  [⟨-1, -1⟩, ⟨0, -1⟩, ⟨1, -1⟩,
   ⟨-1, 0⟩,           ⟨1, 0⟩,
   ⟨-1, 1⟩, ⟨0, 1⟩, ⟨1, 1⟩]

/-- The 9 offsets of a full 3×3 neighborhood in the dy-outer / dx-inner
order of the `for (dy) for (dx)` loops used by `GameState::addCell`,
`GameLogic::markNeighborsAsPotential` and the host-side degraded merge
path. -/
def mooreOffsets : List Vec2i :=
  [⟨-1, -1⟩, ⟨0, -1⟩, ⟨1, -1⟩,
   ⟨-1, 0⟩, ⟨0, 0⟩, ⟨1, 0⟩,
   ⟨-1, 1⟩, ⟨0, 1⟩, ⟨1, 1⟩]

/-- The `for (dy) for (dx)` insertion loop shared by `GameState::addCell`
and `GameLogic::markNeighborsAsPotential`: insert the full 3×3
neighborhood of `c` into the list `p`. -/
def markNeighborsAsPotential (p : List Vec2i) (c : Vec2i) : List Vec2i :=
  mooreOffsets.foldl (fun acc d => acc.insert (c + d)) p

/-- `GameState` of `game_logic.h`: the sparse active / potential sets,
represented by lists (membership = set membership). -/
structure GameState where
  active : List Vec2i
  potential : List Vec2i

/-- `GameState::isAlive`. -/
def GameState.isAlive (s : GameState) (c : Vec2i) : Bool :=
  c ∈ s.active

/-- `GameState::addCell`: insert the cell into `active` and its full
3×3 neighborhood into `potential`. -/
def GameState.addCell (s : GameState) (c : Vec2i) : GameState :=
  { active := s.active.insert c,
    potential := markNeighborsAsPotential s.potential c }

/-- The empty `GameState` (default constructed). -/
def GameState.empty : GameState := ⟨[], []⟩

/-- A state built by repeated `GameState::addCell` from the empty state. -/
def GameState.build (cells : List Vec2i) : GameState :=
  cells.foldl GameState.addCell GameState.empty

/-- `GameLogic::countLivingNeighbors`: membership tests for the 8
adjacent coordinates. -/
def countLivingNeighbors (active : List Vec2i) (c : Vec2i) : Nat :=
  kNeighborOffsets.countP (fun d => decide ((c + d) ∈ active))

/-- The per-cell classification both engines apply: a live cell is kept
iff it has 2 or 3 live neighbors, a dead cell is born iff it has exactly
3 live neighbors (lines 498-515 of `MassiveGameOfLife.cpp`, lines
368-373 of the kernel). -/
def lifeRule (alive : Bool) (n : Nat) : Bool :=
  if alive then decide (n = 2 ∨ n = 3) else decide (n = 3)

/-- Classification of cell `c` against active set `active`. -/
def classify (active : List Vec2i) (c : Vec2i) : Bool :=
  lifeRule (decide (c ∈ active)) (countLivingNeighbors active c)

/-- Whether the classification of `c` differs from its current state. -/
def cellChanged (active : List Vec2i) (c : Vec2i) : Bool :=
  classify active c != decide (c ∈ active)

/-- The body of the `for (cell : current.potential)` loop of
`GameLogic::calculateNextGeneration` (lines 495-516). -/
def calcStep (cur : GameState) (next : GameState) (c : Vec2i) : GameState :=
  let n := countLivingNeighbors cur.active c
  if c ∈ cur.active then
    if n = 2 ∨ n = 3 then
      { next with active := next.active.insert c }
    else
      { next with potential := markNeighborsAsPotential next.potential c }
  else
    if n = 3 then
      { active := next.active.insert c,
        potential := markNeighborsAsPotential next.potential c }
    else
      next

/-- `GameLogic::calculateNextGeneration`: `next.potential` starts as a
copy of `current.active` (lines 490-492), then every potential cell is
classified and merged by `calcStep`. -/
def calculateNextGeneration (cur : GameState) : GameState :=
  let init : GameState :=
    { active := [], potential := cur.active.foldl (fun p c => p.insert c) [] }
  cur.potential.foldl (calcStep cur) init

-- ### membership lemmas for the CPU engine

theorem mem_foldl_insert (l : List Vec2i) (acc : List Vec2i) (c : Vec2i) :
    c ∈ l.foldl (fun p d => p.insert d) acc ↔ c ∈ acc ∨ c ∈ l := by
  induction l generalizing acc with
  | nil => simp
  | cons a l ih =>
    simp only [List.foldl_cons, ih, List.mem_insert_iff, List.mem_cons]
    tauto

theorem mem_markNeighborsAsPotential (p : List Vec2i) (d c : Vec2i) :
    c ∈ markNeighborsAsPotential p d ↔ c ∈ p ∨ ∃ o ∈ mooreOffsets, c = d + o := by
  unfold markNeighborsAsPotential
  induction mooreOffsets generalizing p with
  | nil => simp
  | cons a l ih =>
    simp only [List.foldl_cons, ih, List.mem_insert_iff, List.mem_cons]
    constructor
    · rintro (h | h)
      · rcases h with h | h
        · exact Or.inr ⟨a, Or.inl rfl, h⟩
        · exact Or.inl h
      · rcases h with ⟨o, ho, rfl⟩
        exact Or.inr ⟨o, Or.inr ho, rfl⟩
    · rintro (h | ⟨o, ho, rfl⟩)
      · exact Or.inl (Or.inr h)
      · rcases ho with rfl | ho
        · exact Or.inl (Or.inl rfl)
        · exact Or.inr ⟨o, ho, rfl⟩

theorem calcStep_active_mem (cur next : GameState) (d c : Vec2i) :
    c ∈ (calcStep cur next d).active ↔
      c ∈ next.active ∨ (c = d ∧ classify cur.active c = true) := by
  unfold calcStep classify lifeRule
  by_cases hd : d ∈ cur.active <;>
    by_cases h23 : countLivingNeighbors cur.active d = 2 ∨
        countLivingNeighbors cur.active d = 3 <;>
    by_cases h3 : countLivingNeighbors cur.active d = 3 <;>
    simp_all [List.mem_insert_iff] <;>
      constructor <;> rintro (h | h) <;> simp_all

theorem calcStep_potential_mem (cur next : GameState) (d c : Vec2i) :
    c ∈ (calcStep cur next d).potential ↔
      c ∈ next.potential ∨
        (cellChanged cur.active d = true ∧ ∃ o ∈ mooreOffsets, c = d + o) := by
  unfold calcStep cellChanged classify lifeRule
  by_cases hd : d ∈ cur.active <;>
    by_cases h23 : countLivingNeighbors cur.active d = 2 ∨
        countLivingNeighbors cur.active d = 3 <;>
    by_cases h3 : countLivingNeighbors cur.active d = 3 <;>
    simp_all [mem_markNeighborsAsPotential]

theorem mem_calc_active (cur : GameState) (c : Vec2i) :
    c ∈ (calculateNextGeneration cur).active ↔
      c ∈ cur.potential ∧ classify cur.active c = true := by
  unfold calculateNextGeneration
  generalize hinit :
    ({ active := [], potential := cur.active.foldl (fun p c => p.insert c) [] } :
      GameState) = init
  have hbase : c ∈ init.active ↔ False := by
    subst hinit; simp
  rw [show (c ∈ cur.potential ∧ classify cur.active c = true) ↔
      (c ∈ init.active ∨ (c ∈ cur.potential ∧ classify cur.active c = true)) by
    rw [hbase]; tauto]
  clear hbase hinit
  induction cur.potential generalizing init with
  | nil => simp
  | cons a l ih =>
    simp only [List.foldl_cons, ih, calcStep_active_mem, List.mem_cons]
    tauto

theorem mem_calc_potential (cur : GameState) (c : Vec2i) :
    c ∈ (calculateNextGeneration cur).potential ↔
      c ∈ cur.active ∨
        ∃ d ∈ cur.potential, cellChanged cur.active d = true ∧
          ∃ o ∈ mooreOffsets, c = d + o := by
  unfold calculateNextGeneration
  generalize hinit :
    ({ active := [], potential := cur.active.foldl (fun p c => p.insert c) [] } :
      GameState) = init
  have hbase : c ∈ init.potential ↔ c ∈ cur.active := by
    subst hinit; simpa using mem_foldl_insert cur.active [] c
  rw [show (c ∈ cur.active ∨ _) ↔
      (c ∈ init.potential ∨
        ∃ d ∈ cur.potential, cellChanged cur.active d = true ∧
          ∃ o ∈ mooreOffsets, c = d + o) by rw [hbase]]
  clear hbase hinit
  induction cur.potential generalizing init with
  | nil => simp
  | cons a l ih =>
    simp only [List.foldl_cons, ih, calcStep_potential_mem, List.mem_cons]
    constructor
    · rintro (h | ⟨d, hd, hch, ho⟩)
      · rcases h with h | ⟨hch, ho⟩
        · exact Or.inl h
        · exact Or.inr ⟨a, Or.inl rfl, hch, ho⟩
      · exact Or.inr ⟨d, Or.inr hd, hch, ho⟩
    · rintro (h | ⟨d, hd, hch, ho⟩)
      · exact Or.inl (Or.inl h)
      · rcases hd with rfl | hd
        · exact Or.inl (Or.inr ⟨hch, ho⟩)
        · exact Or.inr ⟨d, hd, hch, ho⟩

-- ### the potential-set invariant (claim C3 machinery)

/-- The invariant assumed on an input state: `potential` contains every
active cell and every cell whose classification differs from its
current state. -/
def adequate (A P : List Vec2i) : Prop :=
  (∀ c ∈ A, c ∈ P) ∧ (∀ c : Vec2i, cellChanged A c = true → c ∈ P)

/-- The union of the 3×3 neighborhoods of all cells of `A`. -/
def mooreClosure (A : List Vec2i) : List Vec2i :=
  A.foldl (fun acc c => markNeighborsAsPotential acc c) []

theorem mem_mooreClosure (A : List Vec2i) (c : Vec2i) :
    c ∈ mooreClosure A ↔ ∃ a ∈ A, ∃ o ∈ mooreOffsets, c = a + o := by
  unfold mooreClosure
  generalize hacc : ([] : List Vec2i) = acc
  have hbase : c ∈ acc ↔ False := by subst hacc; simp
  rw [show (∃ a ∈ A, ∃ o ∈ mooreOffsets, c = a + o) ↔
      (c ∈ acc ∨ ∃ a ∈ A, ∃ o ∈ mooreOffsets, c = a + o) by rw [hbase]; tauto]
  clear hbase hacc
  induction A generalizing acc with
  | nil => simp
  | cons a l ih =>
    simp only [List.foldl_cons, ih, mem_markNeighborsAsPotential, List.mem_cons]
    constructor
    · rintro (h | ⟨d, hd, ho⟩)
      · rcases h with h | ⟨o, ho, rfl⟩
        · exact Or.inl h
        · exact Or.inr ⟨a, Or.inl rfl, o, ho, rfl⟩
      · exact Or.inr ⟨d, Or.inr hd, ho⟩
    · rintro (h | ⟨d, hd, ho⟩)
      · exact Or.inl (Or.inl h)
      · rcases hd with rfl | hd
        · exact Or.inl (Or.inr ho)
        · exact Or.inr ⟨d, hd, ho⟩

theorem add_zero_offset (c : Vec2i) : c + (⟨0, 0⟩ : Vec2i) = c := by
  cases c; simp [Vec2i.add_def]

theorem zero_offset_mem : (⟨0, 0⟩ : Vec2i) ∈ mooreOffsets := by decide

/-- Every Moore offset has an inverse Moore offset. -/
theorem mooreOffsets_symm {o : Vec2i} (ho : o ∈ mooreOffsets) :
    ∃ o2 ∈ mooreOffsets, ∀ c : Vec2i, (c + o) + o2 = c := by
  refine ⟨⟨-o.x, -o.y⟩, ?_, ?_⟩
  · fin_cases ho <;> decide
  · intro c; cases c; simp [Vec2i.add_def]

theorem kNeighborOffsets_subset_moore {o : Vec2i} (ho : o ∈ kNeighborOffsets) :
    o ∈ mooreOffsets := by
  fin_cases ho <;> decide

/-- The neighbor count only depends on the membership of the 8 adjacent
coordinates. -/
theorem countLivingNeighbors_congr {A B : List Vec2i} (c : Vec2i)
    (h : ∀ o ∈ kNeighborOffsets, ((c + o) ∈ A ↔ (c + o) ∈ B)) :
    countLivingNeighbors A c = countLivingNeighbors B c := by
  unfold countLivingNeighbors
  refine List.countP_congr ?_
  intro o ho
  simp only [decide_eq_true_eq, decide_eq_decide]
  exact h o ho

/-- The classification of `c` only depends on the membership of the
cells of the 3×3 neighborhood of `c`. -/
theorem classify_congr {A B : List Vec2i} (c : Vec2i)
    (h : ∀ o ∈ mooreOffsets, ((c + o) ∈ A ↔ (c + o) ∈ B)) :
    classify A c = classify B c := by
  unfold classify
  have hc : (c ∈ A) ↔ (c ∈ B) := by
    have := h ⟨0, 0⟩ zero_offset_mem
    rwa [add_zero_offset] at this
  have hn : countLivingNeighbors A c = countLivingNeighbors B c :=
    countLivingNeighbors_congr c fun o ho => h o (kNeighborOffsets_subset_moore ho)
  rw [hn, decide_eq_decide.mpr hc]

/-- A cell classified alive lies in the Moore closure of the active set. -/
theorem classify_mem_closure {A : List Vec2i} {c : Vec2i}
    (h : classify A c = true) : c ∈ mooreClosure A := by
  rw [mem_mooreClosure]
  by_cases hc : c ∈ A
  · exact ⟨c, hc, ⟨0, 0⟩, zero_offset_mem, (add_zero_offset c).symm⟩
  · have hn : countLivingNeighbors A c = 3 := by
      unfold classify lifeRule at h
      simp [hc] at h
      exact h
    have hpos : 0 < countLivingNeighbors A c := by omega
    unfold countLivingNeighbors at hpos
    rw [List.countP_pos_iff] at hpos
    obtain ⟨o, ho, hmem⟩ := hpos
    simp only [decide_eq_true_eq] at hmem
    obtain ⟨o2, ho2, hinv⟩ := mooreOffsets_symm (kNeighborOffsets_subset_moore ho)
    exact ⟨c + o, hmem, o2, ho2, (hinv c).symm⟩

/-- A cell whose classification differs from its state lies in the Moore
closure of the active set. -/
theorem cellChanged_mem_closure {A : List Vec2i} {c : Vec2i}
    (h : cellChanged A c = true) : c ∈ mooreClosure A := by
  unfold cellChanged at h
  by_cases hc : c ∈ A
  · rw [mem_mooreClosure]
    exact ⟨c, hc, ⟨0, 0⟩, zero_offset_mem, (add_zero_offset c).symm⟩
  · have : classify A c = true := by
      simp [hc] at h
      exact h
    exact classify_mem_closure this

/-- Sufficient condition to establish `adequate` on concrete inputs. -/
theorem adequate_of (A P : List Vec2i)
    (h1 : ∀ c ∈ A, c ∈ P) (h2 : ∀ c ∈ mooreClosure A, c ∈ P) :
    adequate A P :=
  ⟨h1, fun c hc => h2 c (cellChanged_mem_closure hc)⟩

/-- Under the invariant, the computed next active set is exactly the
true Conway image of the active set. -/
theorem next_active_iff_classify {A P : List Vec2i} (h : adequate A P)
    (c : Vec2i) :
    c ∈ (calculateNextGeneration ⟨A, P⟩).active ↔ classify A c = true := by
  rw [mem_calc_active]
  constructor
  · rintro ⟨_, hcl⟩; exact hcl
  · intro hcl
    refine ⟨?_, hcl⟩
    by_cases hch : cellChanged A c = true
    · exact h.2 c hch
    · have hc : c ∈ A := by
        unfold cellChanged at hch
        simp only [bne_iff_ne, ne_eq, not_not] at hch
        rw [hcl] at hch
        simpa using hch.symm
      exact h.1 c hc

/-- Under the invariant, the invariant holds again for the output state. -/
theorem adequate_preserved {A P : List Vec2i} (h : adequate A P) :
    adequate (calculateNextGeneration ⟨A, P⟩).active
      (calculateNextGeneration ⟨A, P⟩).potential := by
  set next := calculateNextGeneration ⟨A, P⟩ with hnext
  constructor
  · -- every newly active cell is in the new potential set
    intro c hc
    have hcl : classify A c = true := (next_active_iff_classify h c).mp hc
    by_cases hca : c ∈ A
    · rw [hnext, mem_calc_potential]; exact Or.inl hca
    · have hch : cellChanged A c = true := by
        unfold cellChanged
        simp [classify, hca] at hcl ⊢
        simp [classify, hca, hcl]
      rw [hnext, mem_calc_potential]
      exact Or.inr ⟨c, h.2 c hch, hch,
        ⟨0, 0⟩, zero_offset_mem, (add_zero_offset c).symm⟩
  · -- every cell whose state may change next step is in the new potential
    intro c hch2
    by_cases hagree : ∀ o ∈ mooreOffsets, ((c + o) ∈ A ↔ (c + o) ∈ next.active)
    · -- all of c's neighborhood is unchanged: c's classification is unchanged
      exfalso
      have hclassify : classify A c = classify next.active c :=
        classify_congr c hagree
      have hcmem : (c ∈ A) ↔ (c ∈ next.active) := by
        have := hagree ⟨0, 0⟩ zero_offset_mem
        rwa [add_zero_offset] at this
      have hchA : cellChanged A c = true := by
        unfold cellChanged at hch2 ⊢
        rw [hclassify, decide_eq_decide.mpr hcmem]
        exact hch2
      -- but then c was adequate-covered, so it was evaluated, so its new
      -- state equals its classification, contradicting a second change
      have hcP : c ∈ P := h.2 c hchA
      have hnewc : (c ∈ next.active) ↔ classify A c = true :=
        next_active_iff_classify h c
      unfold cellChanged at hch2
      rw [hclassify.symm] at hch2
      rcases Bool.eq_false_or_eq_true (classify A c) with hcl | hcl
      · rw [hcl] at hch2 hnewc
        have : c ∈ next.active := hnewc.mpr rfl
        simp [this] at hch2
      · rw [hcl] at hch2 hnewc
        have : c ∉ next.active := fun hmem => by
          have := hnewc.mp hmem; simp_all
        simp [this] at hch2
    · -- some cell d of c's neighborhood changed; c is in d's written block
      push_neg at hagree
      obtain ⟨o, ho, hne⟩ := hagree
      set d := c + o with hd
      have hne2 : (d ∈ A ∧ d ∉ next.active) ∨ (d ∉ A ∧ d ∈ next.active) := by
        tauto
      have hdn : (d ∈ next.active) ↔ classify A d = true :=
        next_active_iff_classify h d
      have hdch : cellChanged A d = true := by
        unfold cellChanged
        rcases hne2 with ⟨hdA, hdna⟩ | ⟨hdA, hdna⟩
        · have hcl : classify A d = false := by
            rcases Bool.eq_false_or_eq_true (classify A d) with hc2 | hc2
            · exact absurd (hdn.mpr hc2) hdna
            · exact hc2
          simp [hcl, hdA]
        · have hcl : classify A d = true := hdn.mp hdna
          simp [hcl, hdA]
      obtain ⟨o2, ho2, hinv⟩ := mooreOffsets_symm ho
      rw [hnext, mem_calc_potential]
      exact Or.inr ⟨d, h.2 d hdch, hdch, o2, ho2, (hinv c).symm⟩

/-- `n`-fold application of the engine's step. -/
def stepIter (n : Nat) (s : GameState) : GameState :=
  Nat.iterate calculateNextGeneration n s

/-- The mathematical Conway step on a finite active set: every cell of
the Moore closure classified alive (outside the closure the
classification is always dead). -/
def trueStepL (A : List Vec2i) : List Vec2i :=
  (mooreClosure A).filter (fun c => classify A c)

/-- `n`-fold mathematical Conway iteration. -/
def conwayIter (n : Nat) (A : List Vec2i) : List Vec2i :=
  Nat.iterate trueStepL n A

theorem mem_trueStepL (A : List Vec2i) (c : Vec2i) :
    c ∈ trueStepL A ↔ classify A c = true := by
  unfold trueStepL
  rw [List.mem_filter]
  constructor
  · rintro ⟨_, hcl⟩; exact hcl
  · intro hcl; exact ⟨classify_mem_closure hcl, hcl⟩

theorem trueStepL_congr {A B : List Vec2i} (h : ∀ c, c ∈ A ↔ c ∈ B) (c : Vec2i) :
    c ∈ trueStepL A ↔ c ∈ trueStepL B := by
  rw [mem_trueStepL, mem_trueStepL]
  rw [classify_congr c (fun o _ => h (c + o))]

-- ### states built via `GameState::addCell`

section BuildLemmas

-- Within this section `markNeighborsAsPotential` is only reasoned about
-- through `mem_markNeighborsAsPotential`; keeping it from being
-- delta-unfolded here keeps unification cheap.
attribute [local irreducible] markNeighborsAsPotential

theorem addCell_active (s : GameState) (a : Vec2i) :
    (GameState.addCell s a).active = s.active.insert a := rfl

theorem addCell_potential (s : GameState) (a : Vec2i) :
    (GameState.addCell s a).potential = markNeighborsAsPotential s.potential a := rfl

theorem mem_build_active (cells : List Vec2i) (c : Vec2i) :
    c ∈ (GameState.build cells).active ↔ c ∈ cells := by
  unfold GameState.build GameState.empty
  generalize hs : (⟨[], []⟩ : GameState) = s
  have hbase : c ∈ s.active ↔ False := by subst hs; simp
  rw [show (c ∈ cells) ↔ (c ∈ s.active ∨ c ∈ cells) by rw [hbase]; tauto]
  clear hbase hs
  induction cells generalizing s with
  | nil => simp
  | cons a l ih =>
    simp only [List.foldl_cons, ih, addCell_active, List.mem_insert_iff,
      List.mem_cons]
    tauto

theorem mem_build_potential (cells : List Vec2i) (c : Vec2i) :
    c ∈ (GameState.build cells).potential ↔
      ∃ a ∈ cells, ∃ o ∈ mooreOffsets, c = a + o := by
  unfold GameState.build GameState.empty
  generalize hs : (⟨[], []⟩ : GameState) = s
  have hbase : c ∈ s.potential ↔ False := by subst hs; simp
  rw [show (∃ a ∈ cells, ∃ o ∈ mooreOffsets, c = a + o) ↔
      (c ∈ s.potential ∨ ∃ a ∈ cells, ∃ o ∈ mooreOffsets, c = a + o) by
    rw [hbase]; tauto]
  clear hbase hs
  induction cells generalizing s with
  | nil => simp
  | cons a l ih =>
    simp only [List.foldl_cons, ih, addCell_potential,
      mem_markNeighborsAsPotential, List.mem_cons]
    constructor
    · rintro (h | ⟨d, hd, ho⟩)
      · rcases h with h | ⟨o, ho, rfl⟩
        · exact Or.inl h
        · exact Or.inr ⟨a, Or.inl rfl, o, ho, rfl⟩
      · exact Or.inr ⟨d, Or.inr hd, ho⟩
    · rintro (h | ⟨d, hd, ho⟩)
      · exact Or.inl (Or.inl h)
      · rcases hd with rfl | hd
        · exact Or.inl (Or.inr ho)
        · exact Or.inr ⟨d, hd, ho⟩

theorem build_adequate (cells : List Vec2i) :
    adequate (GameState.build cells).active (GameState.build cells).potential := by
  refine adequate_of _ _ ?_ ?_
  · intro c hc
    rw [mem_build_active] at hc
    rw [mem_build_potential]
    exact ⟨c, hc, ⟨0, 0⟩, zero_offset_mem, (add_zero_offset c).symm⟩
  · intro c hc
    rw [mem_mooreClosure] at hc
    obtain ⟨a, ha, o, ho, rfl⟩ := hc
    rw [mem_build_active] at ha
    rw [mem_build_potential]
    exact ⟨a, ha, o, ho, rfl⟩

/-- The engine's iterates from an `addCell`-built state compute the
mathematical Conway iterates of the initial cell set. -/
theorem stepIter_eq_conwayIter (cells : List Vec2i) (n : Nat) (c : Vec2i) :
    c ∈ (stepIter n (GameState.build cells)).active ↔
      c ∈ conwayIter n (GameState.build cells).active := by
  suffices h : ∀ n,
      adequate (stepIter n (GameState.build cells)).active
          (stepIter n (GameState.build cells)).potential ∧
      (∀ c, c ∈ (stepIter n (GameState.build cells)).active ↔
          c ∈ conwayIter n (GameState.build cells).active) from
    (h n).2 c
  intro n
  induction n with
  | zero => exact ⟨build_adequate cells, fun c => Iff.rfl⟩
  | succ n ih =>
    obtain ⟨hadq, hiff⟩ := ih
    have hstep : stepIter (n + 1) (GameState.build cells) =
        calculateNextGeneration (stepIter n (GameState.build cells)) := by
      unfold stepIter
      rw [Function.iterate_succ_apply']
    have htrue : conwayIter (n + 1) (GameState.build cells).active =
        trueStepL (conwayIter n (GameState.build cells).active) := by
      unfold conwayIter
      rw [Function.iterate_succ_apply']
    set sn := stepIter n (GameState.build cells) with hsn
    have hsplit : sn = ⟨sn.active, sn.potential⟩ := rfl
    constructor
    · rw [hstep, hsplit]
      exact adequate_preserved hadq
    · intro c
      rw [hstep, htrue, hsplit]
      rw [next_active_iff_classify hadq c, ← mem_trueStepL]
      exact trueStepL_congr hiff c

end BuildLemmas

-- ### claims C2 and C3

/-- Claim C2: `GameLogic::calculateNextGeneration` places a cell in
`next.active` iff the cell is in `potential` and either it is active
with 2 or 3 living neighbors among the 8 adjacent coordinates, or
inactive with exactly 3; in particular no cell outside `potential` is
ever placed in `next.active`. -/
theorem claim_C2 (cur : GameState) (c : Vec2i) :
    c ∈ (calculateNextGeneration cur).active ↔
      c ∈ cur.potential ∧
        ((c ∈ cur.active ∧ (countLivingNeighbors cur.active c = 2 ∨
            countLivingNeighbors cur.active c = 3)) ∨
         (c ∉ cur.active ∧ countLivingNeighbors cur.active c = 3)) := by
  rw [mem_calc_active]
  unfold classify lifeRule
  by_cases hc : c ∈ cur.active <;> simp [hc]

/-- Claim C3: under the potential-set invariant (potential contains
every active cell and every cell whose state could change), the output
of `GameLogic::calculateNextGeneration` contains every currently-active
cell in its potential set, contains the full 3×3 neighborhood of every
changed cell, computes exactly the true unbounded-plane Conway image as
its active set, satisfies the invariant again, the invariant holds for
every state built by `GameState::addCell`, and hence repeated stepping
from such a state computes the true Conway evolution. -/
theorem claim_C3 {A P : List Vec2i} (h : adequate A P) :
    (∀ c ∈ A, c ∈ (calculateNextGeneration ⟨A, P⟩).potential) ∧
    (∀ d ∈ P, cellChanged A d = true →
        ∀ o ∈ mooreOffsets, d + o ∈ (calculateNextGeneration ⟨A, P⟩).potential) ∧
    (∀ c, c ∈ (calculateNextGeneration ⟨A, P⟩).active ↔ classify A c = true) ∧
    adequate (calculateNextGeneration ⟨A, P⟩).active
      (calculateNextGeneration ⟨A, P⟩).potential ∧
    (∀ cells : List Vec2i,
        adequate (GameState.build cells).active (GameState.build cells).potential) ∧
    (∀ (cells : List Vec2i) (n : Nat) (c : Vec2i),
        c ∈ (stepIter n (GameState.build cells)).active ↔
          c ∈ conwayIter n (GameState.build cells).active) := by
  refine ⟨?_, ?_, next_active_iff_classify h, adequate_preserved h,
    build_adequate, stepIter_eq_conwayIter⟩
  · intro c hc
    rw [mem_calc_potential]
    exact Or.inl hc
  · intro d hd hch o ho
    rw [mem_calc_potential]
    exact Or.inr ⟨d, hd, hch, o, ho, rfl⟩

/-- Witness for C3 on a concrete blinker state. -/
theorem claim_C3_witness :
    (⟨0, 0⟩ : Vec2i) ∈
      (calculateNextGeneration
        ⟨[⟨0, 0⟩, ⟨1, 0⟩, ⟨2, 0⟩],
         mooreClosure [⟨0, 0⟩, ⟨1, 0⟩, ⟨2, 0⟩]⟩).potential ∧
    (⟨1, -1⟩ : Vec2i) ∈
      (calculateNextGeneration
        ⟨[⟨0, 0⟩, ⟨1, 0⟩, ⟨2, 0⟩],
         mooreClosure [⟨0, 0⟩, ⟨1, 0⟩, ⟨2, 0⟩]⟩).active := by
  have hadq : adequate [⟨0, 0⟩, ⟨1, 0⟩, ⟨2, 0⟩]
      (mooreClosure [⟨0, 0⟩, ⟨1, 0⟩, ⟨2, 0⟩]) :=
    adequate_of _ _
      (fun c hc => by
        rw [mem_mooreClosure]
        exact ⟨c, hc, ⟨0, 0⟩, zero_offset_mem, (add_zero_offset c).symm⟩)
      (fun c hc => hc)
  have h := claim_C3 hadq
  exact ⟨h.1 ⟨0, 0⟩ (by decide), (h.2.2.1 ⟨1, -1⟩).mpr (by decide)⟩

-- ## The GPU hash table (Metal host + kernel probe)

/-- `HashEntry` of the Metal host / kernel: a slot of the open-addressed
table (the `padding` field carries no information and is dropped;
`occupied` is compared against 0 in the sources, modelled as `Bool`). -/
structure HashEntry where
  x : Int
  y : Int
  occupied : Bool
deriving DecidableEq, Repr

/-- A value-initialized (all-zero) slot, as produced by
`std::vector<HashEntry> table(desiredTableSize)`. -/
def emptyEntry : HashEntry := ⟨0, 0, false⟩

/-- `static_cast<uint64_t>(static_cast<uint32_t>(v))`: the unsigned
32-bit bit pattern of a signed 32-bit value. -/
def toU32 (i : Int) : Nat := (i % 4294967296).toNat

/-- The 64-bit key `(uint64(uint32(y)) << 32) | uint64(uint32(x))`,
identical in `PopulateHashTable` (host) and `is_alive` (kernel). -/
def hashKey (c : Vec2i) : Nat := (toU32 c.y) <<< 32 ||| toU32 c.x

/-- Reading slot `i` of the table (all accesses are in range in the
sources; the default never surfaces in the theorems). -/
def slotAt (t : List HashEntry) (i : Nat) : HashEntry := t.getD i emptyEntry

/-- The probe loop of the kernel's `is_alive` (lines 328-340 of the
Metal source), with its iteration count made explicit as fuel; the loop
leaves via one of its three `return`s before the fuel runs out whenever
`fuel ≥ table length` (proved below). -/
def probeAux (t : List HashEntry) (mask : Nat) (c : Vec2i) (start : Nat) :
    Nat → Nat → Bool
  | 0, _ => false
  | fuel + 1, idx =>
    if (slotAt t idx).occupied = false then false
    else if (slotAt t idx).x = c.x ∧ (slotAt t idx).y = c.y then true
    else if (idx + 1) &&& mask = start then false
    else probeAux t mask c start fuel ((idx + 1) &&& mask)

/-- Kernel `is_alive`: probe from the canonical slot `key & mask`. -/
def is_alive (t : List HashEntry) (mask : Nat) (c : Vec2i) : Bool :=
  let start := hashKey c &&& mask
  probeAux t mask c start t.length start

/-- The insertion loop of `PopulateHashTable` (lines 296-318 of the
Metal host file) for a single cell: probe from the canonical slot, stop
at an empty slot or a slot already holding the same coordinate, fail
("Hash table is full") when the probe wraps to its start; the entry is
written at the stopping slot. -/
def insertAux (t : List HashEntry) (mask : Nat) (c : Vec2i) (start : Nat) :
    Nat → Nat → Option (List HashEntry)
  | 0, _ => none
  | fuel + 1, idx =>
    if (slotAt t idx).occupied = true then
      if (slotAt t idx).x = c.x ∧ (slotAt t idx).y = c.y then
        some (t.set idx ⟨c.x, c.y, true⟩)
      else if (idx + 1) &&& mask = start then none
      else insertAux t mask c start fuel ((idx + 1) &&& mask)
    else some (t.set idx ⟨c.x, c.y, true⟩)

/-- One iteration of the `for (cell : currentActive)` loop of
`PopulateHashTable`. -/
def insertCell (mask : Nat) (t : List HashEntry) (c : Vec2i) :
    Option (List HashEntry) :=
  let start := hashKey c &&& mask
  insertAux t mask c start t.length start

/-- `PopulateHashTable`: resize an empty table to one slot, then insert
every active cell in order; `none` models the `false` return with
`error = "Hash table is full"`. -/
def PopulateHashTable (cells : List Vec2i) (table : List HashEntry) :
    Option (List HashEntry) :=
  let t := if table.isEmpty then [emptyEntry] else table
  let mask := t.length - 1
  cells.foldlM (fun acc c => insertCell mask acc c) t

-- ### probe-path arithmetic

/-- The `m`-th slot visited by a probe starting at `start` in a table of
`size` slots. -/
def pathIdx (size start m : Nat) : Nat := (start + m) % size

/-- The slot at which a probe for `c` stops: an empty slot or a
coordinate match. -/
def isStop (t : List HashEntry) (c : Vec2i) (i : Nat) : Bool :=
  !(slotAt t i).occupied ||
    ((slotAt t i).x == c.x && (slotAt t i).y == c.y)

/-- The first stopping offset of the probe for `c` from `start`. -/
def firstStop (t : List HashEntry) (c : Vec2i) (size start : Nat) : Option Nat :=
  (List.range size).find? (fun m => isStop t c (pathIdx size start m))

/-- What the kernel probe returns: found iff the first stop is an
occupied matching slot. -/
def probeResult (t : List HashEntry) (c : Vec2i) (size start : Nat) : Bool :=
  match firstStop t c size start with
  | some m =>
    (slotAt t (pathIdx size start m)).occupied &&
      ((slotAt t (pathIdx size start m)).x == c.x &&
       (slotAt t (pathIdx size start m)).y == c.y)
  | none => false

/-- What the host insertion returns: the entry written at the first
stop, failure if no stop exists on the whole cycle. -/
def insertResult (t : List HashEntry) (c : Vec2i) (size start : Nat) :
    Option (List HashEntry) :=
  match firstStop t c size start with
  | some m => some (t.set (pathIdx size start m) ⟨c.x, c.y, true⟩)
  | none => none

theorem find?_range_eq_some :
    ∀ (n : Nat) (p : Nat → Bool) (m : Nat),
      (List.range n).find? p = some m ↔
        m < n ∧ p m = true ∧ ∀ l, l < m → p l = false := by
  intro n
  induction n with
  | zero => intro p m; simp
  | succ n ih =>
    intro p m
    rw [List.range_succ_eq_map, List.find?_cons_eq_some, List.find?_map]
    by_cases h0 : p 0 = true
    · simp only [h0, true_and, Bool.not_true]
      constructor
      · rintro (rfl | ⟨hfalse, _⟩)
        · exact ⟨Nat.succ_pos n, h0, fun l hl => absurd hl (Nat.not_lt_zero l)⟩
        · exact absurd hfalse (by simp)
      · rintro ⟨hm, hpm, hall⟩
        rcases Nat.eq_zero_or_pos m with rfl | hpos
        · exact Or.inl rfl
        · exact absurd h0 (by rw [hall 0 hpos]; exact Bool.false_ne_true)
    · have h0f : p 0 = false := Bool.eq_false_iff.mpr h0
      simp only [h0f, Bool.not_false, true_and]
      constructor
      · rintro (⟨hfalse, _⟩ | h)
        · exact absurd hfalse (by simp)
        · obtain ⟨m2, hm2, hmap⟩ := Option.map_eq_some'.mp h
          obtain ⟨hlt, hp, hall⟩ := (ih _ m2).mp hm2
          subst hmap
          refine ⟨Nat.succ_lt_succ hlt, hp, fun l hl => ?_⟩
          cases l with
          | zero => exact h0f
          | succ l2 => exact hall l2 (Nat.lt_of_succ_lt_succ hl)
      · rintro ⟨hm, hpm, hall⟩
        cases m with
        | zero => exact absurd hpm (by rw [h0f]; exact Bool.false_ne_true)
        | succ m2 =>
          refine Or.inr (Option.map_eq_some'.mpr ⟨m2, (ih _ m2).mpr ?_, rfl⟩)
          exact ⟨Nat.lt_of_succ_lt_succ hm, hpm,
            fun l hl => hall (l + 1) (Nat.succ_lt_succ hl)⟩

theorem find?_range_eq_none (n : Nat) (p : Nat → Bool) :
    (List.range n).find? p = none ↔ ∀ l, l < n → p l = false := by
  rw [List.find?_eq_none]
  constructor
  · intro h l hl
    have := h l (List.mem_range.mpr hl)
    simpa using this
  · intro h x hx
    have := h x (List.mem_range.mp hx)
    simp [this]

-- ### modular arithmetic of the probe path

theorem two_pow_pos (k : Nat) : 0 < 2 ^ k := Nat.pos_pow_of_pos k (by omega)

theorem and_mask_eq_mod (x k : Nat) : x &&& (2 ^ k - 1) = x % 2 ^ k :=
  Nat.and_pow_two_sub_one_eq_mod x k

theorem pathIdx_lt (k start m : Nat) : pathIdx (2 ^ k) start m < 2 ^ k :=
  Nat.mod_lt _ (two_pow_pos k)

theorem pathIdx_zero {k start : Nat} (hstart : start < 2 ^ k) :
    pathIdx (2 ^ k) start 0 = start := by
  unfold pathIdx
  rw [Nat.add_zero, Nat.mod_eq_of_lt hstart]

theorem pathIdx_next (k start m : Nat) :
    (pathIdx (2 ^ k) start m + 1) &&& (2 ^ k - 1) = pathIdx (2 ^ k) start (m + 1) := by
  unfold pathIdx
  rw [and_mask_eq_mod, Nat.mod_add_mod, Nat.add_assoc]

theorem add_mod_left_eq_iff {k start : Nat} (hstart : start < 2 ^ k) (x : Nat) :
    (start + x) % 2 ^ k = start ↔ x % 2 ^ k = 0 := by
  constructor
  · intro h
    have hmodeq : start + x ≡ start + 0 [MOD 2 ^ k] := by
      unfold Nat.ModEq
      rw [h, Nat.add_zero, Nat.mod_eq_of_lt hstart]
    have := Nat.ModEq.add_left_cancel' start hmodeq
    simpa [Nat.ModEq] using this
  · intro h
    rw [Nat.add_mod, h, Nat.add_zero, Nat.mod_mod]
    exact Nat.mod_eq_of_lt hstart

theorem pathIdx_eq_start_iff {k start : Nat} (hstart : start < 2 ^ k) (m : Nat)
    (hm : 0 < m) (hle : m ≤ 2 ^ k) :
    pathIdx (2 ^ k) start m = start ↔ m = 2 ^ k := by
  unfold pathIdx
  rw [add_mod_left_eq_iff hstart]
  constructor
  · intro h
    have hdvd : 2 ^ k ∣ m := Nat.dvd_of_mod_eq_zero h
    exact Nat.le_antisymm hle (Nat.le_of_dvd hm hdvd)
  · rintro rfl
    exact Nat.mod_self _

theorem pathIdx_inj {k start : Nat} (hstart : start < 2 ^ k) {m1 m2 : Nat}
    (h1 : m1 < 2 ^ k) (h2 : m2 < 2 ^ k)
    (h : pathIdx (2 ^ k) start m1 = pathIdx (2 ^ k) start m2) : m1 = m2 := by
  unfold pathIdx at h
  have hmodeq : start + m1 ≡ start + m2 [MOD 2 ^ k] := h
  have := Nat.ModEq.add_left_cancel' start hmodeq
  unfold Nat.ModEq at this
  rwa [Nat.mod_eq_of_lt h1, Nat.mod_eq_of_lt h2] at this

theorem pathIdx_surj {k start : Nat} (hstart : start < 2 ^ k) {i : Nat}
    (hi : i < 2 ^ k) : ∃ m, m < 2 ^ k ∧ pathIdx (2 ^ k) start m = i := by
  refine ⟨(i + 2 ^ k - start) % 2 ^ k, Nat.mod_lt _ (two_pow_pos k), ?_⟩
  unfold pathIdx
  rw [Nat.add_mod_mod,
    Nat.add_sub_cancel' (Nat.le_trans (Nat.le_of_lt hstart) (Nat.le_add_left _ i)),
    Nat.add_mod_right]
  exact Nat.mod_eq_of_lt hi

-- ### characterizing the fueled probe loops by their first stop

theorem isStop_of_empty {t : List HashEntry} {c : Vec2i} {i : Nat}
    (h : (slotAt t i).occupied = false) : isStop t c i = true := by
  unfold isStop
  rw [h]
  simp

theorem isStop_of_match {t : List HashEntry} {c : Vec2i} {i : Nat}
    (hx : (slotAt t i).x = c.x) (hy : (slotAt t i).y = c.y) :
    isStop t c i = true := by
  unfold isStop
  rw [hx, hy]
  simp

theorem isStop_false_of {t : List HashEntry} {c : Vec2i} {i : Nat}
    (hocc : (slotAt t i).occupied = true)
    (hne : ¬((slotAt t i).x = c.x ∧ (slotAt t i).y = c.y)) :
    isStop t c i = false := by
  unfold isStop
  rw [hocc]
  simp only [Bool.not_true, Bool.false_or, Bool.and_eq_false_iff]
  rcases Decidable.not_and_iff_or_not.mp hne with h | h
  · exact Or.inl (beq_eq_false_iff_ne.mpr h)
  · exact Or.inr (beq_eq_false_iff_ne.mpr h)

theorem isStop_elim {t : List HashEntry} {c : Vec2i} {i : Nat}
    (h : isStop t c i = true) :
    (slotAt t i).occupied = false ∨
      ((slotAt t i).x = c.x ∧ (slotAt t i).y = c.y) := by
  unfold isStop at h
  rcases Bool.or_eq_true_iff.mp h with h | h
  · exact Or.inl (by simpa using h)
  · rcases Bool.and_eq_true_iff.mp h with ⟨hx, hy⟩
    exact Or.inr ⟨beq_iff_eq.mp hx, beq_iff_eq.mp hy⟩

theorem isStop_neg_elim {t : List HashEntry} {c : Vec2i} {i : Nat}
    (h : isStop t c i = false) :
    (slotAt t i).occupied = true ∧
      ¬((slotAt t i).x = c.x ∧ (slotAt t i).y = c.y) := by
  unfold isStop at h
  rcases Bool.or_eq_false_iff.mp h with ⟨h1, h2⟩
  constructor
  · cases hocc : (slotAt t i).occupied
    · rw [hocc] at h1; simp at h1
    · rfl
  · rintro ⟨hx, hy⟩
    rcases Bool.and_eq_false_iff.mp h2 with h3 | h3 <;>
      [exact beq_eq_false_iff_ne.mp h3 hx; exact beq_eq_false_iff_ne.mp h3 hy]

theorem probeAux_spec (t : List HashEntry) (k : Nat) (c : Vec2i) {start : Nat}
    (hstart : start < 2 ^ k) :
    ∀ (fuel m : Nat), m < 2 ^ k → 2 ^ k - m ≤ fuel →
      (∀ l, l < m → isStop t c (pathIdx (2 ^ k) start l) = false) →
      probeAux t (2 ^ k - 1) c start fuel (pathIdx (2 ^ k) start m) =
        probeResult t c (2 ^ k) start := by
  intro fuel
  induction fuel with
  | zero => intro m hm hfuel hno; omega
  | succ f ih =>
    intro m hm hfuel hno
    by_cases hocc : (slotAt t (pathIdx (2 ^ k) start m)).occupied = false
    · have hfs : firstStop t c (2 ^ k) start = some m := by
        unfold firstStop
        rw [find?_range_eq_some]
        exact ⟨hm, isStop_of_empty hocc, hno⟩
      rw [probeAux, if_pos hocc]
      unfold probeResult
      rw [hfs]
      simp [hocc]
    · have hocc' : (slotAt t (pathIdx (2 ^ k) start m)).occupied = true := by
        cases h : (slotAt t (pathIdx (2 ^ k) start m)).occupied
        · exact absurd h hocc
        · rfl
      by_cases hmatch : (slotAt t (pathIdx (2 ^ k) start m)).x = c.x ∧
          (slotAt t (pathIdx (2 ^ k) start m)).y = c.y
      · have hfs : firstStop t c (2 ^ k) start = some m := by
          unfold firstStop
          rw [find?_range_eq_some]
          exact ⟨hm, isStop_of_match hmatch.1 hmatch.2, hno⟩
        rw [probeAux, if_neg hocc, if_pos hmatch]
        unfold probeResult
        rw [hfs]
        simp [hocc', beq_iff_eq, hmatch.1, hmatch.2]
      · have hstopf : isStop t c (pathIdx (2 ^ k) start m) = false :=
          isStop_false_of hocc' hmatch
        rw [probeAux, if_neg hocc, if_neg hmatch, pathIdx_next]
        by_cases hwrap : pathIdx (2 ^ k) start (m + 1) = start
        · have hmeq : m + 1 = 2 ^ k :=
            (pathIdx_eq_start_iff hstart (m + 1) (Nat.succ_pos m) hm).mp hwrap
          have hnone : firstStop t c (2 ^ k) start = none := by
            unfold firstStop
            rw [find?_range_eq_none]
            intro l hl
            rcases Nat.lt_or_ge l m with h | h
            · exact hno l h
            · have : l = m := by omega
              subst this
              exact hstopf
          rw [if_pos hwrap]
          unfold probeResult
          rw [hnone]
        · have hm1 : m + 1 < 2 ^ k := by
            rcases Nat.lt_or_ge (m + 1) (2 ^ k) with h | h
            · exact h
            · have heq : m + 1 = 2 ^ k := by omega
              exact absurd
                ((pathIdx_eq_start_iff hstart (m + 1) (Nat.succ_pos m) hm).mpr heq)
                hwrap
          rw [if_neg hwrap]
          refine ih (m + 1) hm1 (by omega) ?_
          intro l hl
          rcases Nat.lt_or_ge l m with h | h
          · exact hno l h
          · have : l = m := by omega
            subst this
            exact hstopf

theorem insertAux_spec (t : List HashEntry) (k : Nat) (c : Vec2i) {start : Nat}
    (hstart : start < 2 ^ k) :
    ∀ (fuel m : Nat), m < 2 ^ k → 2 ^ k - m ≤ fuel →
      (∀ l, l < m → isStop t c (pathIdx (2 ^ k) start l) = false) →
      insertAux t (2 ^ k - 1) c start fuel (pathIdx (2 ^ k) start m) =
        insertResult t c (2 ^ k) start := by
  intro fuel
  induction fuel with
  | zero => intro m hm hfuel hno; omega
  | succ f ih =>
    intro m hm hfuel hno
    by_cases hocc : (slotAt t (pathIdx (2 ^ k) start m)).occupied = true
    · by_cases hmatch : (slotAt t (pathIdx (2 ^ k) start m)).x = c.x ∧
          (slotAt t (pathIdx (2 ^ k) start m)).y = c.y
      · have hfs : firstStop t c (2 ^ k) start = some m := by
          unfold firstStop
          rw [find?_range_eq_some]
          exact ⟨hm, isStop_of_match hmatch.1 hmatch.2, hno⟩
        rw [insertAux, if_pos hocc, if_pos hmatch]
        unfold insertResult
        rw [hfs]
      · have hstopf : isStop t c (pathIdx (2 ^ k) start m) = false :=
          isStop_false_of hocc hmatch
        rw [insertAux, if_pos hocc, if_neg hmatch, pathIdx_next]
        by_cases hwrap : pathIdx (2 ^ k) start (m + 1) = start
        · have hmeq : m + 1 = 2 ^ k :=
            (pathIdx_eq_start_iff hstart (m + 1) (Nat.succ_pos m) hm).mp hwrap
          have hnone : firstStop t c (2 ^ k) start = none := by
            unfold firstStop
            rw [find?_range_eq_none]
            intro l hl
            rcases Nat.lt_or_ge l m with h | h
            · exact hno l h
            · have : l = m := by omega
              subst this
              exact hstopf
          rw [if_pos hwrap]
          unfold insertResult
          rw [hnone]
        · have hm1 : m + 1 < 2 ^ k := by
            rcases Nat.lt_or_ge (m + 1) (2 ^ k) with h | h
            · exact h
            · have heq : m + 1 = 2 ^ k := by omega
              exact absurd
                ((pathIdx_eq_start_iff hstart (m + 1) (Nat.succ_pos m) hm).mpr heq)
                hwrap
          rw [if_neg hwrap]
          refine ih (m + 1) hm1 (by omega) ?_
          intro l hl
          rcases Nat.lt_or_ge l m with h | h
          · exact hno l h
          · have : l = m := by omega
            subst this
            exact hstopf
    · have hoccf : (slotAt t (pathIdx (2 ^ k) start m)).occupied = false := by
        cases h : (slotAt t (pathIdx (2 ^ k) start m)).occupied
        · rfl
        · exact absurd h hocc
      have hfs : firstStop t c (2 ^ k) start = some m := by
        unfold firstStop
        rw [find?_range_eq_some]
        exact ⟨hm, isStop_of_empty hoccf, hno⟩
      rw [insertAux, if_neg hocc]
      unfold insertResult
      rw [hfs]

/-- The home slot `key & (tableSize - 1)` of a coordinate. -/
def homeIdx (k : Nat) (c : Vec2i) : Nat := hashKey c % 2 ^ k

theorem homeIdx_lt (k : Nat) (c : Vec2i) : homeIdx k c < 2 ^ k :=
  Nat.mod_lt _ (two_pow_pos k)

theorem is_alive_eq {t : List HashEntry} {k : Nat}
    (hlen : t.length = 2 ^ k) (c : Vec2i) :
    is_alive t (2 ^ k - 1) c = probeResult t c (2 ^ k) (homeIdx k c) := by
  unfold is_alive
  rw [and_mask_eq_mod]
  have h0 : homeIdx k c = pathIdx (2 ^ k) (homeIdx k c) 0 :=
    (pathIdx_zero (homeIdx_lt k c)).symm
  calc probeAux t (2 ^ k - 1) c (hashKey c % 2 ^ k) t.length (hashKey c % 2 ^ k)
      = probeAux t (2 ^ k - 1) c (homeIdx k c) t.length
          (pathIdx (2 ^ k) (homeIdx k c) 0) := by rw [← h0]; rfl
    _ = probeResult t c (2 ^ k) (homeIdx k c) :=
        probeAux_spec t k c (homeIdx_lt k c) t.length 0 (two_pow_pos k)
          (by omega) (fun l hl => absurd hl (Nat.not_lt_zero l))

theorem insertCell_eq {t : List HashEntry} {k : Nat}
    (hlen : t.length = 2 ^ k) (c : Vec2i) :
    insertCell (2 ^ k - 1) t c = insertResult t c (2 ^ k) (homeIdx k c) := by
  unfold insertCell
  rw [and_mask_eq_mod]
  have h0 : homeIdx k c = pathIdx (2 ^ k) (homeIdx k c) 0 :=
    (pathIdx_zero (homeIdx_lt k c)).symm
  calc insertAux t (2 ^ k - 1) c (hashKey c % 2 ^ k) t.length (hashKey c % 2 ^ k)
      = insertAux t (2 ^ k - 1) c (homeIdx k c) t.length
          (pathIdx (2 ^ k) (homeIdx k c) 0) := by rw [← h0]; rfl
    _ = insertResult t c (2 ^ k) (homeIdx k c) :=
        insertAux_spec t k c (homeIdx_lt k c) t.length 0 (two_pow_pos k)
          (by omega) (fun l hl => absurd hl (Nat.not_lt_zero l))

-- ### slot access lemmas

theorem slotAt_set_self {t : List HashEntry} {i : Nat} (h : i < t.length)
    (a : HashEntry) : slotAt (t.set i a) i = a := by
  unfold slotAt
  rw [List.getD_eq_getElem?_getD, List.getElem?_set_self h]
  rfl

theorem slotAt_set_ne {t : List HashEntry} {i j : Nat} (h : i ≠ j)
    (a : HashEntry) : slotAt (t.set i a) j = slotAt t j := by
  unfold slotAt
  rw [List.getD_eq_getElem?_getD, List.getD_eq_getElem?_getD,
    List.getElem?_set_ne h]

theorem slotAt_replicate (n i : Nat) :
    slotAt (List.replicate n emptyEntry) i = emptyEntry := by
  unfold slotAt
  rw [List.getD_eq_getElem?_getD, List.getElem?_replicate]
  by_cases h : i < n <;> simp [h]

theorem set_slotAt_self {t : List HashEntry} {i : Nat} {e : HashEntry}
    (h : i < t.length) (he : slotAt t i = e) : t.set i e = t := by
  apply List.ext_getElem?
  intro n
  rw [List.getElem?_set]
  by_cases hin : i = n
  · subst hin
    rw [if_pos rfl, if_pos h]
    unfold slotAt at he
    rw [List.getD_eq_getElem?_getD] at he
    rw [List.getElem?_eq_getElem h]
    rw [List.getElem?_eq_getElem h] at he
    simp only [Option.getD_some] at he
    rw [he]
  · rw [if_neg hin]

/-- The coordinate stored in a slot. -/
def entryCell (e : HashEntry) : Vec2i := ⟨e.x, e.y⟩

/-- The invariant maintained by `PopulateHashTable` over the insertion
loop: the table of `2^k` slots holds exactly the already-inserted
coordinates, each exactly once, and every occupied slot is reachable
from its coordinate's home slot through a gap-free run of occupied
slots (the linear-probing invariant). -/
structure TableInv (k : Nat) (cells : List Vec2i) (t : List HashEntry) : Prop where
  len : t.length = 2 ^ k
  coords : ∀ i, i < 2 ^ k → (slotAt t i).occupied = true →
    entryCell (slotAt t i) ∈ cells
  complete : ∀ c ∈ cells, ∃ i, i < 2 ^ k ∧ (slotAt t i).occupied = true ∧
    entryCell (slotAt t i) = c
  uniq : ∀ i j, i < 2 ^ k → j < 2 ^ k →
    (slotAt t i).occupied = true → (slotAt t j).occupied = true →
    entryCell (slotAt t i) = entryCell (slotAt t j) → i = j
  path : ∀ i, i < 2 ^ k → (slotAt t i).occupied = true →
    ∀ m, m < 2 ^ k →
      pathIdx (2 ^ k) (homeIdx k (entryCell (slotAt t i))) m = i →
      ∀ l, l < m →
        (slotAt t (pathIdx (2 ^ k) (homeIdx k (entryCell (slotAt t i))) l)).occupied
          = true

theorem entryCell_x {e : HashEntry} {c : Vec2i} (h : entryCell e = c) : e.x = c.x := by
  rw [← h]; rfl

theorem entryCell_y {e : HashEntry} {c : Vec2i} (h : entryCell e = c) : e.y = c.y := by
  rw [← h]; rfl

theorem entryCell_of_xy {e : HashEntry} {c : Vec2i} (hx : e.x = c.x)
    (hy : e.y = c.y) : entryCell e = c := by
  unfold entryCell
  rw [hx, hy]

/-- On a table satisfying the invariant, the probe finds every inserted
coordinate. -/
theorem probeResult_true_of_inv {k : Nat} {cells : List Vec2i}
    {t : List HashEntry} (hinv : TableInv k cells t) {c : Vec2i}
    (hc : c ∈ cells) : probeResult t c (2 ^ k) (homeIdx k c) = true := by
  obtain ⟨i, hi, hiocc, hic⟩ := hinv.complete c hc
  obtain ⟨off, hoff, hpath_off⟩ := pathIdx_surj (homeIdx_lt k c) hi
  have hstop_off : isStop t c (pathIdx (2 ^ k) (homeIdx k c) off) = true := by
    rw [hpath_off]
    exact isStop_of_match (entryCell_x hic) (entryCell_y hic)
  have hsome : (firstStop t c (2 ^ k) (homeIdx k c)).isSome := by
    unfold firstStop
    rw [List.find?_isSome]
    exact ⟨off, List.mem_range.mpr hoff, hstop_off⟩
  obtain ⟨m0, hm0⟩ := Option.isSome_iff_exists.mp hsome
  obtain ⟨hm0lt, hm0stop, hm0least⟩ :=
    (find?_range_eq_some _ _ _).mp hm0
  have hm0le : m0 ≤ off := by
    by_contra hgt
    push_neg at hgt
    rw [hm0least off hgt] at hstop_off
    exact Bool.false_ne_true hstop_off
  have hocc_m0 : (slotAt t (pathIdx (2 ^ k) (homeIdx k c) m0)).occupied = true := by
    rcases Nat.eq_or_lt_of_le hm0le with heq | hlt
    · subst heq
      rw [hpath_off]
      exact hiocc
    · have hhome : homeIdx k (entryCell (slotAt t i)) = homeIdx k c := by rw [hic]
      have := hinv.path i hi hiocc off hoff (by rw [hhome]; exact hpath_off) m0 hlt
      rwa [hhome] at this
  have hmatch : (slotAt t (pathIdx (2 ^ k) (homeIdx k c) m0)).x = c.x ∧
      (slotAt t (pathIdx (2 ^ k) (homeIdx k c) m0)).y = c.y := by
    rcases isStop_elim hm0stop with h | h
    · rw [h] at hocc_m0
      exact absurd hocc_m0 (by simp)
    · exact h
  unfold probeResult
  rw [hm0]
  simp [hocc_m0, beq_iff_eq, hmatch.1, hmatch.2]

/-- On a table satisfying the invariant, the probe rejects every
coordinate that was not inserted. -/
theorem probeResult_false_of_inv {k : Nat} {cells : List Vec2i}
    {t : List HashEntry} (hinv : TableInv k cells t) {c : Vec2i}
    (hc : c ∉ cells) : probeResult t c (2 ^ k) (homeIdx k c) = false := by
  unfold probeResult
  cases hfs : firstStop t c (2 ^ k) (homeIdx k c) with
  | none => rfl
  | some m =>
    cases hocc : (slotAt t (pathIdx (2 ^ k) (homeIdx k c) m)).occupied
    · simp [hocc]
    · have hne : ¬((slotAt t (pathIdx (2 ^ k) (homeIdx k c) m)).x = c.x ∧
          (slotAt t (pathIdx (2 ^ k) (homeIdx k c) m)).y = c.y) := by
        rintro ⟨hx, hy⟩
        exact hc (entryCell_of_xy hx hy ▸
          hinv.coords _ (pathIdx_lt k _ m) hocc)
      rcases Decidable.not_and_iff_or_not.mp hne with h | h <;>
        simp [beq_eq_false_iff_ne.mpr h]

/-- Inserting one cell preserves the table invariant, extending the
inserted-coordinate list. -/
theorem tableInv_insert {k : Nat} {cells : List Vec2i} {t : List HashEntry}
    (hinv : TableInv k cells t) {c : Vec2i} {t2 : List HashEntry}
    (hins : insertCell (2 ^ k - 1) t c = some t2) :
    TableInv k (cells ++ [c]) t2 := by
  rw [insertCell_eq hinv.len] at hins
  unfold insertResult at hins
  cases hfs : firstStop t c (2 ^ k) (homeIdx k c) with
  | none => rw [hfs] at hins; exact absurd hins (by simp)
  | some m =>
    rw [hfs] at hins
    have ht2 : t2 = t.set (pathIdx (2 ^ k) (homeIdx k c) m) ⟨c.x, c.y, true⟩ :=
      (Option.some_inj.mp hins).symm
    obtain ⟨hmlt, hmstop, hmleast⟩ := (find?_range_eq_some _ _ _).mp hfs
    have hi'lt : pathIdx (2 ^ k) (homeIdx k c) m < 2 ^ k := pathIdx_lt k _ m
    have hi'len : pathIdx (2 ^ k) (homeIdx k c) m < t.length := by
      rw [hinv.len]; exact hi'lt
    by_cases hoccT : (slotAt t (pathIdx (2 ^ k) (homeIdx k c) m)).occupied = true
    · -- the cell is already in the table: the write is a no-op
      have hmatch : (slotAt t (pathIdx (2 ^ k) (homeIdx k c) m)).x = c.x ∧
          (slotAt t (pathIdx (2 ^ k) (homeIdx k c) m)).y = c.y := by
        rcases isStop_elim hmstop with h | h
        · rw [h] at hoccT; exact absurd hoccT (by simp)
        · exact h
      have hentry : slotAt t (pathIdx (2 ^ k) (homeIdx k c) m) =
          (⟨c.x, c.y, true⟩ : HashEntry) := by
        have heta : slotAt t (pathIdx (2 ^ k) (homeIdx k c) m) =
            ⟨(slotAt t (pathIdx (2 ^ k) (homeIdx k c) m)).x,
             (slotAt t (pathIdx (2 ^ k) (homeIdx k c) m)).y,
             (slotAt t (pathIdx (2 ^ k) (homeIdx k c) m)).occupied⟩ := rfl
        rw [heta, hmatch.1, hmatch.2, hoccT]
      have ht2t : t2 = t := by rw [ht2, set_slotAt_self hi'len hentry]
      subst ht2t
      refine ⟨hinv.len, ?_, ?_, hinv.uniq, hinv.path⟩
      · intro i hi hiocc
        exact List.mem_append_left _ (hinv.coords i hi hiocc)
      · intro c0 hc0
        rcases List.mem_append.mp hc0 with h | h
        · exact hinv.complete c0 h
        · rw [List.mem_singleton.mp h]
          exact ⟨pathIdx (2 ^ k) (homeIdx k c) m, hi'lt, hoccT,
            entryCell_of_xy hmatch.1 hmatch.2⟩
    · -- a genuinely new entry is written into the empty stop slot
      have hoccF : (slotAt t (pathIdx (2 ^ k) (homeIdx k c) m)).occupied = false := by
        cases h : (slotAt t (pathIdx (2 ^ k) (homeIdx k c) m)).occupied
        · rfl
        · exact absurd h hoccT
      have hslot_i : slotAt t2 (pathIdx (2 ^ k) (homeIdx k c) m) =
          (⟨c.x, c.y, true⟩ : HashEntry) := by
        rw [ht2]; exact slotAt_set_self hi'len _
      have hslot_ne : ∀ j, j ≠ pathIdx (2 ^ k) (homeIdx k c) m →
          slotAt t2 j = slotAt t j := by
        intro j hj
        rw [ht2]; exact slotAt_set_ne (Ne.symm hj) _
      have hmono : ∀ j, (slotAt t j).occupied = true →
          (slotAt t2 j).occupied = true := by
        intro j hj
        by_cases hji : j = pathIdx (2 ^ k) (homeIdx k c) m
        · subst hji; rw [hj] at hoccF; exact absurd hoccF (by simp)
        · rw [hslot_ne j hji]; exact hj
      have hleast2 : ∀ l, l < m →
          (slotAt t (pathIdx (2 ^ k) (homeIdx k c) l)).occupied = true ∧
          ¬((slotAt t (pathIdx (2 ^ k) (homeIdx k c) l)).x = c.x ∧
            (slotAt t (pathIdx (2 ^ k) (homeIdx k c) l)).y = c.y) :=
        fun l hl => isStop_neg_elim (hmleast l hl)
      have hcellEta : entryCell (⟨c.x, c.y, true⟩ : HashEntry) = c := rfl
      have hno_c : ∀ j, j < 2 ^ k → (slotAt t j).occupied = true →
          entryCell (slotAt t j) ≠ c := by
        intro j hj hjocc hjc
        obtain ⟨off, hofflt, hoffeq⟩ := pathIdx_surj (homeIdx_lt k c) hj
        rcases Nat.lt_trichotomy off m with hlt | heq | hgt
        · have := (hleast2 off hlt).2
          rw [hoffeq] at this
          exact this ⟨entryCell_x hjc, entryCell_y hjc⟩
        · subst heq
          rw [hoffeq] at hoccF
          rw [hjocc] at hoccF
          exact absurd hoccF (by simp)
        · have hhome : homeIdx k (entryCell (slotAt t j)) = homeIdx k c := by
            rw [hjc]
          have := hinv.path j hj hjocc off hofflt (by rw [hhome]; exact hoffeq)
            m hgt
          rw [hhome] at this
          rw [this] at hoccF
          exact absurd hoccF (by simp)
      refine ⟨?_, ?_, ?_, ?_, ?_⟩
      · rw [ht2, List.length_set, hinv.len]
      · intro i hi hiocc
        by_cases hii : i = pathIdx (2 ^ k) (homeIdx k c) m
        · subst hii
          rw [hslot_i, hcellEta]
          exact List.mem_append_right _ (List.mem_singleton.mpr rfl)
        · rw [hslot_ne i hii] at hiocc ⊢
          exact List.mem_append_left _ (hinv.coords i hi hiocc)
      · intro c0 hc0
        rcases List.mem_append.mp hc0 with h | h
        · obtain ⟨j, hj, hjocc, hjcell⟩ := hinv.complete c0 h
          have hji : j ≠ pathIdx (2 ^ k) (homeIdx k c) m := by
            intro heq
            subst heq
            rw [hjocc] at hoccF
            exact absurd hoccF (by simp)
          exact ⟨j, hj, by rw [hslot_ne j hji]; exact hjocc,
            by rw [hslot_ne j hji]; exact hjcell⟩
        · rw [List.mem_singleton.mp h]
          exact ⟨pathIdx (2 ^ k) (homeIdx k c) m, hi'lt,
            by rw [hslot_i], by rw [hslot_i]; exact hcellEta⟩
      · intro i j hi hj hiocc hjocc hcell
        by_cases hii : i = pathIdx (2 ^ k) (homeIdx k c) m <;>
          by_cases hji : j = pathIdx (2 ^ k) (homeIdx k c) m
        · rw [hii, hji]
        · subst hii
          rw [hslot_i, hcellEta] at hcell
          rw [hslot_ne j hji] at hjocc hcell
          exact absurd hcell.symm (hno_c j hj hjocc)
        · subst hji
          rw [hslot_i, hcellEta] at hcell
          rw [hslot_ne i hii] at hiocc hcell
          exact absurd hcell (hno_c i hi hiocc)
        · rw [hslot_ne i hii] at hiocc hcell
          rw [hslot_ne j hji] at hjocc hcell
          exact hinv.uniq i j hi hj hiocc hjocc hcell
      · intro i hi hiocc m2 hm2 hpath2 l hl
        by_cases hii : i = pathIdx (2 ^ k) (homeIdx k c) m
        · subst hii
          rw [hslot_i, hcellEta] at hpath2 ⊢
          have hm2m : m2 = m := pathIdx_inj (homeIdx_lt k c) hm2 hmlt hpath2
          subst hm2m
          exact hmono _ (hleast2 l hl).1
        · rw [hslot_ne i hii] at hiocc hpath2 ⊢
          exact hmono _ (hinv.path i hi hiocc m2 hm2 hpath2 l hl)

/-- The freshly value-initialized table satisfies the invariant for no
inserted cells. -/
theorem tableInv_init (k : Nat) :
    TableInv k [] (List.replicate (2 ^ k) emptyEntry) := by
  refine ⟨List.length_replicate _ _, ?_, ?_, ?_, ?_⟩
  · intro i hi hocc
    rw [slotAt_replicate] at hocc
    exact absurd hocc (by simp [emptyEntry])
  · intro c hc
    exact absurd hc (List.not_mem_nil c)
  · intro i j hi hj hiocc
    rw [slotAt_replicate] at hiocc
    exact absurd hiocc (by simp [emptyEntry])
  · intro i hi hiocc
    rw [slotAt_replicate] at hiocc
    exact absurd hiocc (by simp [emptyEntry])

theorem tableInv_foldlM {k : Nat} :
    ∀ (cells pre : List Vec2i) (t ta : List HashEntry),
      TableInv k pre t →
      cells.foldlM (fun acc c => insertCell (2 ^ k - 1) acc c) t = some ta →
      TableInv k (pre ++ cells) ta := by
  intro cells
  induction cells with
  | nil =>
    intro pre t ta hinv hfold
    rw [List.foldlM_nil] at hfold
    cases hfold
    rw [List.append_nil]
    exact hinv
  | cons c cs ih =>
    intro pre t ta hinv hfold
    rw [List.foldlM_cons] at hfold
    rcases Option.bind_eq_some.mp hfold with ⟨t1, hins, hrest⟩
    have h1 : TableInv k (pre ++ [c]) t1 := tableInv_insert hinv hins
    have h2 : TableInv k ((pre ++ [c]) ++ cs) ta := ih (pre ++ [c]) t1 ta h1 hrest
    rwa [List.append_assoc, List.singleton_append] at h2

/-- A successful `PopulateHashTable` run on a fresh table of `2^k`
slots establishes the invariant for the full active list. -/
theorem populate_inv {k : Nat} {cells : List Vec2i} {t : List HashEntry}
    (hpop : PopulateHashTable cells (List.replicate (2 ^ k) emptyEntry) = some t) :
    TableInv k cells t := by
  unfold PopulateHashTable at hpop
  have hne : (List.replicate (2 ^ k) emptyEntry).isEmpty = false := by
    rw [Bool.eq_false_iff]
    intro h
    have := List.isEmpty_iff.mp h
    rw [List.replicate_eq_nil_iff] at this
    exact Nat.pos_iff_ne_zero.mp (two_pow_pos k) this
  rw [hne] at hpop
  simp only [Bool.false_eq_true, if_false, List.length_replicate] at hpop
  have := tableInv_foldlM cells [] _ t (tableInv_init k) hpop
  rwa [List.nil_append] at this

/-- Any fuel of at least table length yields the probe's fixed answer:
the probe terminates within table-length steps. -/
theorem probe_fuel_ge {t : List HashEntry} {k : Nat}
    (hlen : t.length = 2 ^ k) (c : Vec2i) {fuel : Nat} (hf : 2 ^ k ≤ fuel) :
    probeAux t (2 ^ k - 1) c (hashKey c &&& (2 ^ k - 1)) fuel
        (hashKey c &&& (2 ^ k - 1)) =
      probeResult t c (2 ^ k) (homeIdx k c) := by
  rw [and_mask_eq_mod]
  have h0 : homeIdx k c = pathIdx (2 ^ k) (homeIdx k c) 0 :=
    (pathIdx_zero (homeIdx_lt k c)).symm
  calc probeAux t (2 ^ k - 1) c (hashKey c % 2 ^ k) fuel (hashKey c % 2 ^ k)
      = probeAux t (2 ^ k - 1) c (homeIdx k c) fuel
          (pathIdx (2 ^ k) (homeIdx k c) 0) := by rw [← h0]; rfl
    _ = probeResult t c (2 ^ k) (homeIdx k c) :=
        probeAux_spec t k c (homeIdx_lt k c) fuel 0 (two_pow_pos k)
          (by omega) (fun l hl => absurd hl (Nat.not_lt_zero l))

/-- On a populated table, the kernel probe accepts exactly the inserted
coordinates. -/
theorem populate_is_alive_iff {k : Nat} {cells : List Vec2i}
    {t : List HashEntry}
    (hpop : PopulateHashTable cells (List.replicate (2 ^ k) emptyEntry) = some t)
    (c : Vec2i) : is_alive t (2 ^ k - 1) c = true ↔ c ∈ cells := by
  have hinv := populate_inv hpop
  rw [is_alive_eq hinv.len]
  constructor
  · intro h
    by_contra hc
    rw [probeResult_false_of_inv hinv hc] at h
    exact Bool.false_ne_true h
  · intro hc
    exact probeResult_true_of_inv hinv hc

/-- Claim C4: for every active-cell list whose insertion by
`PopulateHashTable` into a fresh power-of-two table succeeds, the table
holds at most one entry per distinct coordinate; for every coordinate
whatsoever the linear probe from the canonical slot
`(y<<32 | x) & mask` terminates within table-length steps (extra fuel
never changes its verdict), and `is_alive` accepts the coordinate iff
it was in the inserted active list. -/
theorem claim_C4 {k : Nat} {cells : List Vec2i} {t : List HashEntry}
    (hpop : PopulateHashTable cells (List.replicate (2 ^ k) emptyEntry) = some t) :
    (∀ i j, i < 2 ^ k → j < 2 ^ k →
        (slotAt t i).occupied = true → (slotAt t j).occupied = true →
        entryCell (slotAt t i) = entryCell (slotAt t j) → i = j) ∧
    (∀ (c : Vec2i) (extra : Nat),
        probeAux t (2 ^ k - 1) c (hashKey c &&& (2 ^ k - 1)) (t.length + extra)
            (hashKey c &&& (2 ^ k - 1)) =
          is_alive t (2 ^ k - 1) c) ∧
    (∀ c : Vec2i, is_alive t (2 ^ k - 1) c = true ↔ c ∈ cells) := by
  have hinv := populate_inv hpop
  refine ⟨hinv.uniq, ?_, populate_is_alive_iff hpop⟩
  intro c extra
  have h1 := @probe_fuel_ge t k hinv.len c (t.length + extra)
    (by rw [hinv.len]; omega)
  have h2 := is_alive_eq hinv.len c
  rw [h1, ← h2]

/-- Witness for C4 on a concrete two-cell active list with a hash
collision (both cells have home slot 1 in a 4-slot table). -/
theorem claim_C4_witness :
    PopulateHashTable [⟨1, 2⟩, ⟨-3, 4⟩] (List.replicate (2 ^ 2) emptyEntry) =
      some [emptyEntry, ⟨1, 2, true⟩, ⟨-3, 4, true⟩, emptyEntry] ∧
    is_alive [emptyEntry, ⟨1, 2, true⟩, ⟨-3, 4, true⟩, emptyEntry]
      (2 ^ 2 - 1) ⟨-3, 4⟩ = true ∧
    is_alive [emptyEntry, ⟨1, 2, true⟩, ⟨-3, 4, true⟩, emptyEntry]
      (2 ^ 2 - 1) ⟨0, 0⟩ = false := by
  have hpop : PopulateHashTable [⟨1, 2⟩, ⟨-3, 4⟩]
      (List.replicate (2 ^ 2) emptyEntry) =
      some [emptyEntry, ⟨1, 2, true⟩, ⟨-3, 4, true⟩, emptyEntry] := by decide
  have h := @claim_C4 2 [⟨1, 2⟩, ⟨-3, 4⟩] [emptyEntry, ⟨1, 2, true⟩, ⟨-3, 4, true⟩, emptyEntry] hpop
  refine ⟨hpop, (h.2.2 ⟨-3, 4⟩).mpr (by decide), ?_⟩
  rw [Bool.eq_false_iff]
  intro htrue
  have hmem := (h.2.2 ⟨0, 0⟩).mp htrue
  simp at hmem

-- ## NextPowerOfTwo (Metal host file, lines 263-284)

/-- `NextPowerOfTwo`: the bit-smearing round-up to a power of two on a
64-bit `size_t` (`SIZE_MAX >> 1` guard, shifts 1,2,4,8,16,32), returning
0 to signal overflow. -/
def NextPowerOfTwo (value : Nat) : Nat :=
  if value ≤ 1 then 1
  else if value > (2 ^ 64 - 1) >>> 1 then 0
  else
    let v1 := value - 1
    let v2 := v1 ||| (v1 >>> 1)
    let v3 := v2 ||| (v2 >>> 2)
    let v4 := v3 ||| (v3 >>> 4)
    let v5 := v4 ||| (v4 >>> 8)
    let v6 := v5 ||| (v5 >>> 16)
    let v7 := v6 ||| (v6 >>> 32)
    v7 + 1

theorem smear_step {w v1 : Nat} {s : Nat}
    (hw : ∀ i, w.testBit i = true ↔ ∃ d, d < s ∧ v1.testBit (i + d) = true) :
    ∀ i, (w ||| w >>> s).testBit i = true ↔
      ∃ d, d < 2 * s ∧ v1.testBit (i + d) = true := by
  intro i
  rw [Nat.testBit_or, Bool.or_eq_true, hw i, Nat.testBit_shiftRight, hw (s + i)]
  constructor
  · rintro (⟨d, hd, hb⟩ | ⟨d, hd, hb⟩)
    · exact ⟨d, by omega, hb⟩
    · exact ⟨s + d, by omega, by rwa [show i + (s + d) = s + i + d by omega]⟩
  · rintro ⟨d, hd, hb⟩
    rcases Nat.lt_or_ge d s with h | h
    · exact Or.inl ⟨d, h, hb⟩
    · exact Or.inr ⟨d - s, by omega,
        by rwa [show s + i + (d - s) = i + d by omega]⟩

/-- The top bit of a positive number is set. -/
theorem testBit_size_sub_one {v : Nat} (hv : 0 < v) :
    v.testBit (Nat.size v - 1) = true := by
  have hszpos : 0 < Nat.size v := Nat.size_pos.mpr hv
  have hlow : 2 ^ (Nat.size v - 1) ≤ v :=
    Nat.lt_size.mp (by omega)
  have hhigh : v < 2 ^ Nat.size v := Nat.lt_size_self v
  rw [Nat.testBit_to_div_mod]
  have hq1 : 1 ≤ v / 2 ^ (Nat.size v - 1) :=
    (Nat.one_le_div_iff (Nat.pos_pow_of_pos _ (by omega))).mpr hlow
  have hq2 : v / 2 ^ (Nat.size v - 1) < 2 := by
    rw [Nat.div_lt_iff_lt_mul (Nat.pos_pow_of_pos _ (by omega))]
    calc v < 2 ^ Nat.size v := hhigh
    _ = 2 ^ (Nat.size v - 1 + 1) := by congr 1; omega
    _ = 2 ^ (Nat.size v - 1) * 2 := by rw [Nat.pow_succ]
    _ = 2 * 2 ^ (Nat.size v - 1) := Nat.mul_comm _ _
  have hq : v / 2 ^ (Nat.size v - 1) = 1 := by omega
  rw [hq]
  decide

/-- The or-shift cascade of `NextPowerOfTwo` fills every bit below the
most significant set bit: for `0 < v < 2^63` it evaluates to
`2 ^ v.size - 1`. -/
theorem smear_spec {v w1 w2 w3 w4 w5 w6 : Nat}
    (e1 : w1 = v ||| v >>> 1) (e2 : w2 = w1 ||| w1 >>> 2)
    (e3 : w3 = w2 ||| w2 >>> 4) (e4 : w4 = w3 ||| w3 >>> 8)
    (e5 : w5 = w4 ||| w4 >>> 16) (e6 : w6 = w5 ||| w5 >>> 32)
    (hpos : 0 < v) (hlt : v < 2 ^ 63) :
    w6 = 2 ^ Nat.size v - 1 := by
  have h1 : ∀ i, v.testBit i = true ↔ ∃ d, d < 1 ∧ v.testBit (i + d) = true := by
    intro i
    constructor
    · intro h
      exact ⟨0, Nat.zero_lt_one, by rwa [Nat.add_zero]⟩
    · rintro ⟨d, hd, hb⟩
      have hd0 : d = 0 := by omega
      subst hd0
      rwa [Nat.add_zero] at hb
  have h2 : ∀ i, w1.testBit i = true ↔
      ∃ d, d < 2 * 1 ∧ v.testBit (i + d) = true := by
    rw [e1]; exact smear_step h1
  have h3 : ∀ i, w2.testBit i = true ↔
      ∃ d, d < 2 * (2 * 1) ∧ v.testBit (i + d) = true := by
    rw [e2]; exact smear_step h2
  have h4 : ∀ i, w3.testBit i = true ↔
      ∃ d, d < 2 * (2 * (2 * 1)) ∧ v.testBit (i + d) = true := by
    rw [e3]; exact smear_step h3
  have h5 : ∀ i, w4.testBit i = true ↔
      ∃ d, d < 2 * (2 * (2 * (2 * 1))) ∧ v.testBit (i + d) = true := by
    rw [e4]; exact smear_step h4
  have h6 : ∀ i, w5.testBit i = true ↔
      ∃ d, d < 2 * (2 * (2 * (2 * (2 * 1)))) ∧ v.testBit (i + d) = true := by
    rw [e5]; exact smear_step h5
  have h7 : ∀ i, w6.testBit i = true ↔
      ∃ d, d < 2 * (2 * (2 * (2 * (2 * (2 * 1))))) ∧ v.testBit (i + d) = true := by
    rw [e6]; exact smear_step h6
  have hsize : Nat.size v ≤ 63 := Nat.size_le.mpr hlt
  apply Nat.eq_of_testBit_eq
  intro i
  rw [Nat.testBit_two_pow_sub_one]
  by_cases hi : i < Nat.size v
  · have hbit : w6.testBit i = true := by
      refine (h7 i).mpr ⟨Nat.size v - 1 - i, by omega, ?_⟩
      rw [show i + (Nat.size v - 1 - i) = Nat.size v - 1 by omega]
      exact testBit_size_sub_one hpos
    rw [hbit]
    simp [hi]
  · have hbit : w6.testBit i = false := by
      cases hb : w6.testBit i
      · rfl
      · obtain ⟨d, hd, hvb⟩ := (h7 i).mp hb
        have hfb : v.testBit (i + d) = false := by
          apply Nat.testBit_lt_two_pow
          calc v < 2 ^ Nat.size v := Nat.lt_size_self v
          _ ≤ 2 ^ (i + d) := Nat.pow_le_pow_right (by omega) (by omega)
        rw [hfb] at hvb
        exact absurd hvb Bool.false_ne_true
    rw [hbit]
    simp [hi]

theorem nextPowerOfTwo_eq {value : Nat} (hge : 2 ≤ value)
    (hlt : value < 2 ^ 63) :
    NextPowerOfTwo value = 2 ^ Nat.size (value - 1) := by
  have hguard : ¬(value > (2 ^ 64 - 1) >>> 1) := by
    have hval : (2 ^ 64 - 1) >>> 1 = 2 ^ 63 - 1 := by decide
    rw [hval]
    omega
  unfold NextPowerOfTwo
  rw [if_neg (by omega), if_neg hguard]
  have hsm := @smear_spec (value - 1) _ _ _ _ _ _ rfl rfl rfl rfl rfl rfl
    (by omega) (by omega)
  dsimp only
  rw [hsm]
  have : 0 < 2 ^ Nat.size (value - 1) := two_pow_pos _
  omega

theorem nextPowerOfTwo_of_le_one {value : Nat} (h : value ≤ 1) :
    NextPowerOfTwo value = 1 := by
  unfold NextPowerOfTwo
  rw [if_pos h]

theorem nextPowerOfTwo_of_big {value : Nat} (h : 2 ^ 63 ≤ value) :
    NextPowerOfTwo value = 0 := by
  have hguard : value > (2 ^ 64 - 1) >>> 1 := by
    have hval : (2 ^ 64 - 1) >>> 1 = 2 ^ 63 - 1 := by decide
    rw [hval]
    have : (0 : Nat) < 2 ^ 63 := two_pow_pos 63
    omega
  unfold NextPowerOfTwo
  rw [if_neg (by have : (0:Nat) < 2 ^ 63 := two_pow_pos 63; omega), if_pos hguard]

theorem nextPowerOfTwo_ge {value : Nat} (hge : 2 ≤ value)
    (hlt : value < 2 ^ 63) : value ≤ NextPowerOfTwo value := by
  rw [nextPowerOfTwo_eq hge hlt]
  have := Nat.lt_size_self (value - 1)
  omega

theorem nextPowerOfTwo_least {value j : Nat} (hge : 2 ≤ value)
    (hlt : value < 2 ^ 63) (hj : value ≤ 2 ^ j) :
    NextPowerOfTwo value ≤ 2 ^ j := by
  rw [nextPowerOfTwo_eq hge hlt]
  exact Nat.pow_le_pow_right (by omega) (Nat.size_le.mpr (by omega))

theorem nextPowerOfTwo_pow {value : Nat} (h : NextPowerOfTwo value ≠ 0) :
    ∃ j, NextPowerOfTwo value = 2 ^ j := by
  rcases Nat.lt_or_ge value 2 with hlt | hge
  · exact ⟨0, by rw [nextPowerOfTwo_of_le_one (by omega)]; rfl⟩
  · rcases Nat.lt_or_ge value (2 ^ 63) with h63 | h63
    · exact ⟨Nat.size (value - 1), nextPowerOfTwo_eq hge h63⟩
    · exact absurd (nextPowerOfTwo_of_big h63) h

/-- `kMaxTableEntries = 1 << 24` of the Metal host file. -/
def kMaxTableEntries : Nat := 16777216

/-- The table size chosen by `CalculateNextGenerationRaw`:
`NextPowerOfTwo(max(1, currentActive.size() * 2))`. -/
def desiredTableSize (n : Nat) : Nat := NextPowerOfTwo (max 1 (n * 2))

-- ## The life_step kernel (per-lane model)

/-- `CellState` of the kernel / `gpu_calculator.h` (the `int` flags are
written as 0/1 and read back with `!= 0`, modelled as `Bool`). -/
structure CellState where
  x : Int
  y : Int
  wasAlive : Bool
  willBeAlive : Bool
deriving DecidableEq, Repr

/-- The per-lane computation of `life_step` (lines 355-376): probe the
cell and its 8 neighbors and classify with the Conway rule. -/
def lifeStepCell (t : List HashEntry) (mask : Nat) (c : Vec2i) : CellState :=
  { x := c.x, y := c.y, wasAlive := is_alive t mask c,
    willBeAlive := lifeRule (is_alive t mask c)
      (kNeighborOffsets.countP (fun d => is_alive t mask (c + d))) }

/-- The dense per-cell result array written by the kernel. -/
def kernelResults (t : List HashEntry) (mask : Nat)
    (potential : List Vec2i) : List CellState :=
  potential.map (lifeStepCell t mask)

/-- Whether a lane's classification changed (line 378). -/
def stateChanged (st : CellState) : Bool := st.wasAlive != st.willBeAlive

/-- The 9 values a changed lane stores into its reserved block:
`cell + kNeighborOffsets[i]` for `i = 0..8`.  `kNeighborOffsets` has
only 8 entries, so `i = 8` is an out-of-bounds read whose value is
undefined; the parameter `oob` stands for whatever value that read
returns. -/
def blockVals (c : Vec2i) (oob : Vec2i) : List Vec2i :=
  (List.range 9).map (fun i => c + kNeighborOffsets.getD i oob)

/-- The shared-counter state threaded through the lanes (the relaxed
atomic serializes the lanes in some order; the model uses list order). -/
structure KernelAccum where
  counter : Nat
  written : List (Nat × List Vec2i)
deriving Repr

/-- One lane's effect on the overflow counter and buffer (lines
378-385): a changed lane reserves 9 slots by `fetch_add`; it writes its
block only if the reservation ends within `maxNeighbors`. -/
def kernelLane (t : List HashEntry) (mask maxN : Nat) (oob : Vec2i)
    (acc : KernelAccum) (c : Vec2i) : KernelAccum :=
  let st := lifeStepCell t mask c
  if st.wasAlive != st.willBeAlive then
    { counter := acc.counter + 9,
      written :=
        if acc.counter + 9 ≤ maxN then
          acc.written ++ [(acc.counter, blockVals c oob)]
        else acc.written }
  else acc

/-- All lanes of one dispatch. -/
def kernelRun (t : List HashEntry) (mask maxN : Nat) (oob : Vec2i)
    (potential : List Vec2i) : KernelAccum :=
  potential.foldl (kernelLane t mask maxN oob) ⟨0, []⟩

/-- The contiguous written region of the overflow buffer. -/
def writtenFlat (acc : KernelAccum) : List Vec2i :=
  (acc.written.map Prod.snd).join

-- ## The decoder / result merger (gpu_calculator.h, lines 112-150)

/-- The single pass over the dense results (lines 121-132): collect
`nextActive` and count changed cells. -/
def mergeStates (states : List CellState) : List Vec2i × Nat :=
  states.foldl
    (fun (acc : List Vec2i × Nat) st =>
      ((if st.willBeAlive then acc.1.insert ⟨st.x, st.y⟩ else acc.1),
       (if st.wasAlive != st.willBeAlive then acc.2 + 1 else acc.2)))
    ([], 0)

/-- `CalculateNextGeneration`'s merge: `nextPotential` starts as the
input active set; if the neighbor list is long enough
(`size >= changedCount * 9`) it is trusted, otherwise it is discarded
and the 3×3 neighborhoods of all changed cells are reconstructed from
the dense results on the host. -/
def mergeResults (currentActive : List Vec2i) (states : List CellState)
    (neighborCells : List Vec2i) : List Vec2i × List Vec2i :=
  let np0 := currentActive.foldl (fun p c => p.insert c) []
  let na := (mergeStates states).1
  let changedCount := (mergeStates states).2
  let np :=
    if neighborCells.length ≥ changedCount * 9 then
      neighborCells.foldl (fun p c => p.insert c) np0
    else
      states.foldl
        (fun p st =>
          if st.wasAlive != st.willBeAlive then
            markNeighborsAsPotential p ⟨st.x, st.y⟩
          else p) np0
  (na, np)

-- ## The GPU execution context (Metal host file)

/-- The behavior of the external Metal API during one window of calls:
which acquisitions and allocations succeed, what the API-supplied error
descriptions are, the value produced by the kernel's out-of-bounds
`kNeighborOffsets[8]` read, and the stale contents of the reused
neighbor buffer beyond the written region. -/
structure GpuEnv where
  deviceOk : Bool
  queueOk : Bool
  metallibFound : Bool
  libraryLoadFails : Bool
  libraryNsError : Option String
  functionFound : Bool
  pipelineStateFails : Bool
  pipelineNsError : Option String
  paramBufferOk : Bool
  tableBufferOk : Bool
  potentialBufferOk : Bool
  outputBufferOk : Bool
  neighborBufferOk : Bool
  neighborCountBufferOk : Bool
  commandBufferOk : Bool
  encoderOk : Bool
  commandFails : Bool
  commandErrorMsg : String
  oobNeighbor : Vec2i
  staleNeighborData : List Vec2i

/-- The process-wide mutable state: the `std::once_flag`-guarded device
acquisition (`gInitFlag`, `gDeviceAvailable`, `gInitError`), the
`gRequested` toggle, and the cached `MetalContext` pipeline and buffer
capacities.  `deviceAttempts` counts executions of the `call_once` body
(i.e. calls to `MTLCreateSystemDefaultDevice`). -/
structure ProcState where
  initAttempted : Bool
  deviceAvailable : Bool
  initError : String
  deviceAttempts : Nat
  requested : Bool
  hasPipeline : Bool
  hasParamBuffer : Bool
  tableCapacityBytes : Nat
  potentialCapacityBytes : Nat
  outputCapacityBytes : Nat
  neighborCapacityBytes : Nat
  hasNeighborCountBuffer : Bool
deriving DecidableEq, Repr

/-- The state at process start. -/
def initialProcState : ProcState :=
  { initAttempted := false, deviceAvailable := false, initError := ""
    deviceAttempts := 0, requested := false, hasPipeline := false
    hasParamBuffer := false, tableCapacityBytes := 0
    potentialCapacityBytes := 0, outputCapacityBytes := 0
    neighborCapacityBytes := 0, hasNeighborCountBuffer := false }

/-- `EnsureDevice` (lines 134-156): the `call_once` body runs only on
the first call; afterwards the cached verdict is returned, with the
fallback message when the cached error string is empty. -/
def runDeviceInit (env : GpuEnv) (s : ProcState) : ProcState :=
  if s.initAttempted then s
  else
    let s2 := { s with initAttempted := true,
                       deviceAttempts := s.deviceAttempts + 1 }
    if env.deviceOk = false then
      { s2 with deviceAvailable := false,
                initError := "Metal GPU device unavailable" }
    else if env.queueOk = false then
      { s2 with deviceAvailable := false,
                initError := "Failed to create Metal command queue" }
    else { s2 with deviceAvailable := true }

def EnsureDevice (env : GpuEnv) (s : ProcState) :
    (Except String Unit) × ProcState :=
  if (runDeviceInit env s).deviceAvailable then
    (Except.ok (), runDeviceInit env s)
  else
    (Except.error
      (if (runDeviceInit env s).initError = "" then "Metal initialization failed"
       else (runDeviceInit env s).initError),
     runDeviceInit env s)

/-- `IsAvailable` (lines 325-329). -/
def IsAvailable (env : GpuEnv) (s : ProcState) : Bool × ProcState :=
  match EnsureDevice env s with
  | (Except.ok _, s1) => (true, s1)
  | (Except.error _, s1) => (false, s1)

/-- `SetEnabled` (lines 331-334). -/
def SetEnabled (enabled : Bool) (s : ProcState) : ProcState :=
  { s with requested := enabled }

/-- `IsEnabled` (lines 336-344). -/
def IsEnabled (env : GpuEnv) (s : ProcState) : Bool × ProcState :=
  if s.requested = false then (false, s)
  else
    match EnsureDevice env s with
    | (Except.ok _, s1) => (true, s1)
    | (Except.error _, s1) => (false, s1)

/-- `ResetCaches` (lines 346-361): drops the pipeline, library and all
buffers; it does NOT touch the once-flag, the cached device verdict or
the device/queue handles. -/
def ResetCaches (s : ProcState) : ProcState :=
  { s with hasPipeline := false, hasParamBuffer := false,
           tableCapacityBytes := 0, potentialCapacityBytes := 0,
           outputCapacityBytes := 0, neighborCapacityBytes := 0,
           hasNeighborCountBuffer := false }

/-- `EnsurePipeline` (lines 158-205): cached on `ctx.pipeline`; on a
rebuild it locates the metallib, loads the library, looks up
`life_step`, creates the pipeline state (cached from that point on) and
finally allocates the parameter buffer. -/
def EnsurePipeline (env : GpuEnv) (s : ProcState) :
    (Except String Unit) × ProcState :=
  if s.hasPipeline then (Except.ok (), s)
  else
    match EnsureDevice env s with
    | (Except.error e, s1) => (Except.error e, s1)
    | (Except.ok _, s1) =>
      if env.metallibFound = false then
        (Except.error "Unable to locate GameOfLife.metallib", s1)
      else if env.libraryLoadFails then
        (Except.error
          (match env.libraryNsError with
           | some d => d
           | none => "Failed to load Metal library"), s1)
      else if env.functionFound = false then
        (Except.error "Metal function 'life_step' not found", s1)
      else if env.pipelineStateFails then
        (Except.error
          (match env.pipelineNsError with
           | some d => d
           | none => "Failed to create Metal pipeline state"), s1)
      else
        let s2 := { s1 with hasPipeline := true }
        if s2.hasParamBuffer then (Except.ok (), s2)
        else if env.paramBufferOk = false then
          (Except.error "Failed to allocate parameter buffer", s2)
        else (Except.ok (), { s2 with hasParamBuffer := true })

/-- One growth check of `EnsureBuffers`: reallocate only when the
required byte size exceeds the cached capacity, returning the new
capacity (allocation failure only possible when growth is needed). -/
def ensureOneBuffer (needBytes cap : Nat) (allocOk : Bool) (errMsg : String) :
    Except String Nat :=
  if needBytes > cap then
    if allocOk then Except.ok needBytes else Except.error errMsg
  else Except.ok cap

/-- `EnsureBuffers` (lines 207-261): each of the four growable buffers
is reallocated only when the required byte size exceeds the cached
capacity (sizes: `HashEntry` 16, `RawCoordinate` 8, `CellState` 16
bytes; the neighbor buffer holds 9 coordinates per potential cell),
then the fixed-size neighbor counter buffer is allocated once. -/
def EnsureBuffers (env : GpuEnv) (s : ProcState)
    (tableEntries potentialEntries : Nat) :
    (Except String Unit) × ProcState :=
  match ensureOneBuffer (max tableEntries 1 * 16) s.tableCapacityBytes
      env.tableBufferOk "Failed to allocate hash table buffer" with
  | Except.error e => (Except.error e, s)
  | Except.ok tcap =>
    let s1 := { s with tableCapacityBytes := tcap }
    match ensureOneBuffer (max potentialEntries 1 * 8) s1.potentialCapacityBytes
        env.potentialBufferOk "Failed to allocate potential cell buffer" with
    | Except.error e => (Except.error e, s1)
    | Except.ok pcap =>
      let s2 := { s1 with potentialCapacityBytes := pcap }
      match ensureOneBuffer (max potentialEntries 1 * 16) s2.outputCapacityBytes
          env.outputBufferOk "Failed to allocate output buffer" with
      | Except.error e => (Except.error e, s2)
      | Except.ok ocap =>
        let s3 := { s2 with outputCapacityBytes := ocap }
        match ensureOneBuffer (max potentialEntries 1 * 9 * 8)
            s3.neighborCapacityBytes env.neighborBufferOk
            "Failed to allocate neighbor buffer" with
        | Except.error e => (Except.error e, s3)
        | Except.ok ncap =>
          let s4 := { s3 with neighborCapacityBytes := ncap }
          if s4.hasNeighborCountBuffer = false ∧
              env.neighborCountBufferOk = false then
            (Except.error "Failed to allocate neighbor count buffer", s4)
          else
            (Except.ok (), { s4 with hasNeighborCountBuffer := true })

/-- What a successful `CalculateNextGenerationRaw` hands back:
`results` and the (possibly truncated) `neighborOutputs`, plus whether a
kernel dispatch actually happened and whether the host detected
overflow (`rawNeighborCount > maxNeighbors`, line 493). -/
structure RawSuccess where
  results : List CellState
  neighborOutputs : List Vec2i
  dispatched : Bool
  neighborOverflow : Bool
deriving Repr

/-- `detail::CalculateNextGenerationRaw` (lines 375-506), with the GPU
dispatch itself replaced by the per-lane kernel model executed over the
same inputs the encoder binds. -/
def CalculateNextGenerationRaw (env : GpuEnv) (s : ProcState)
    (currentActive potentialCells : List Vec2i) :
    (Except String RawSuccess) × ProcState :=
  if potentialCells.length > 4294967295 then
    (Except.error "Too many potential cells for GPU dispatch", s)
  else
    match EnsurePipeline env s with
    | (Except.error e, s1) => (Except.error e, s1)
    | (Except.ok _, s1) =>
      if potentialCells.length = 0 then
        (Except.ok ⟨[], [], false, false⟩, s1)
      else
        let size := NextPowerOfTwo (max 1 (currentActive.length * 2))
        if size = 0 ∨ size > kMaxTableEntries then
          (Except.error "Active cell count is too large for GPU hash table", s1)
        else
          match PopulateHashTable currentActive
              (List.replicate size emptyEntry) with
          | none => (Except.error "Hash table is full", s1)
          | some table =>
            match EnsureBuffers env s1 size potentialCells.length with
            | (Except.error e, s2) => (Except.error e, s2)
            | (Except.ok _, s2) =>
              if env.commandBufferOk = false then
                (Except.error "Failed to create command buffer", s2)
              else if env.encoderOk = false then
                (Except.error "Failed to create compute command encoder", s2)
              else
                let mask := size - 1
                let maxNeighbors := s2.neighborCapacityBytes / 8
                if env.commandFails then
                  (Except.error env.commandErrorMsg, s2)
                else
                  let run :=
                    kernelRun table mask maxNeighbors env.oobNeighbor
                      potentialCells
                  (Except.ok
                    { results := kernelResults table mask potentialCells,
                      neighborOutputs :=
                        (writtenFlat run ++ env.staleNeighborData).take
                          (min run.counter maxNeighbors),
                      dispatched := true,
                      neighborOverflow := decide (run.counter > maxNeighbors) },
                   s2)

/-- The outcome of the templated `CalculateNextGeneration` of
`gpu_calculator.h` as seen by the caller: the success flag, the two
output sets, the `usedGPU` flag and the error string. -/
structure StepOutcome where
  success : Bool
  nextActive : List Vec2i
  nextPotential : List Vec2i
  usedGPU : Bool
  errorMessage : String

/-- `CalculateNextGeneration` (gpu_calculator.h, lines 96-153): on
failure `usedGPU` is forced to false and the caller's sets are left
untouched; on success the dense results are merged. -/
def CalculateNextGeneration (env : GpuEnv) (s : ProcState)
    (currentActive potentialCells prevNextActive prevNextPotential :
      List Vec2i) : StepOutcome × ProcState :=
  match CalculateNextGenerationRaw env s currentActive potentialCells with
  | (Except.error e, s1) =>
    ({ success := false, nextActive := prevNextActive,
       nextPotential := prevNextPotential, usedGPU := false,
       errorMessage := e }, s1)
  | (Except.ok r, s1) =>
    ({ success := true,
       nextActive := (mergeResults currentActive r.results r.neighborOutputs).1,
       nextPotential :=
         (mergeResults currentActive r.results r.neighborOutputs).2,
       usedGPU := true, errorMessage := "" }, s1)

-- ### merge lemmas

theorem mergeStates_snd (states : List CellState) :
    ∀ acc : List Vec2i × Nat,
      (states.foldl
        (fun (acc : List Vec2i × Nat) st =>
          ((if st.willBeAlive then acc.1.insert ⟨st.x, st.y⟩ else acc.1),
           (if st.wasAlive != st.willBeAlive then acc.2 + 1 else acc.2)))
        acc).2 = acc.2 + states.countP stateChanged := by
  induction states with
  | nil => intro acc; simp
  | cons st sts ih =>
    intro acc
    rw [List.foldl_cons, ih, List.countP_cons]
    unfold stateChanged
    by_cases h : (st.wasAlive != st.willBeAlive) = true <;> simp [h] <;> omega

theorem mergeStates_fst_mem (states : List CellState) (c : Vec2i) :
    ∀ acc : List Vec2i × Nat,
      (c ∈ (states.foldl
        (fun (acc : List Vec2i × Nat) st =>
          ((if st.willBeAlive then acc.1.insert ⟨st.x, st.y⟩ else acc.1),
           (if st.wasAlive != st.willBeAlive then acc.2 + 1 else acc.2)))
        acc).1 ↔
      c ∈ acc.1 ∨ ∃ st ∈ states, st.willBeAlive = true ∧ c = ⟨st.x, st.y⟩) := by
  induction states with
  | nil => intro acc; simp
  | cons st sts ih =>
    intro acc
    rw [List.foldl_cons, ih]
    by_cases hw : st.willBeAlive = true <;>
      simp [hw, List.mem_insert_iff] <;> tauto

theorem mem_mergeStates (states : List CellState) (c : Vec2i) :
    c ∈ (mergeStates states).1 ↔
      ∃ st ∈ states, st.willBeAlive = true ∧ c = ⟨st.x, st.y⟩ := by
  unfold mergeStates
  rw [mergeStates_fst_mem]
  simp

theorem mergeStates_count (states : List CellState) :
    (mergeStates states).2 = states.countP stateChanged := by
  unfold mergeStates
  rw [mergeStates_snd]
  simp

theorem degraded_mem (states : List CellState) (c : Vec2i) :
    ∀ acc : List Vec2i,
      (c ∈ states.foldl
        (fun p st =>
          if st.wasAlive != st.willBeAlive then
            markNeighborsAsPotential p ⟨st.x, st.y⟩
          else p) acc ↔
      c ∈ acc ∨ ∃ st ∈ states, stateChanged st = true ∧
        ∃ o ∈ mooreOffsets, c = (⟨st.x, st.y⟩ : Vec2i) + o) := by
  induction states with
  | nil => intro acc; simp
  | cons st sts ih =>
    intro acc
    rw [List.foldl_cons, ih]
    unfold stateChanged
    by_cases hch : (st.wasAlive != st.willBeAlive) = true
    · simp only [hch, if_true, mem_markNeighborsAsPotential, List.mem_cons]
      constructor
      · rintro ((h | h) | ⟨s2, hs2, hchs, ho⟩)
        · exact Or.inl h
        · exact Or.inr ⟨st, Or.inl rfl, hch, h⟩
        · exact Or.inr ⟨s2, Or.inr hs2, hchs, ho⟩
      · rintro (h | ⟨s2, hs2, hchs, ho⟩)
        · exact Or.inl (Or.inl h)
        · rcases hs2 with rfl | hs2
          · exact Or.inl (Or.inr ho)
          · exact Or.inr ⟨s2, hs2, hchs, ho⟩
    · simp only [hch, if_false, List.mem_cons]
      constructor
      · rintro (h | ⟨s2, hs2, hchs, ho⟩)
        · exact Or.inl h
        · exact Or.inr ⟨s2, Or.inr hs2, hchs, ho⟩
      · rintro (h | ⟨s2, hs2, hchs, ho⟩)
        · exact Or.inl h
        · rcases hs2 with rfl | hs2
          · exact absurd hchs hch
          · exact Or.inr ⟨s2, hs2, hchs, ho⟩

theorem mergeResults_def (a : List Vec2i) (st : List CellState)
    (nb : List Vec2i) :
    mergeResults a st nb =
      ((mergeStates st).1,
       if nb.length ≥ (mergeStates st).2 * 9 then
         nb.foldl (fun p c => p.insert c) (a.foldl (fun p c => p.insert c) [])
       else
         st.foldl
           (fun p s2 =>
             if s2.wasAlive != s2.willBeAlive then
               markNeighborsAsPotential p ⟨s2.x, s2.y⟩
             else p)
           (a.foldl (fun p c => p.insert c) [])) := rfl

/-- Claim C5: in the result merge, when the returned neighbor list has
at least `9 × changedCount` entries it is trusted: `nextPotential` is
the union of the input active set and the neighbor list; otherwise the
list is discarded and `nextPotential` is the union of the input active
set and the host-reconstructed 3×3 neighborhoods of every changed
result — and `nextActive` (exactly the results with `willBeAlive`) is
the same whatever neighbor list is supplied. -/
theorem claim_C5 (active : List Vec2i) (states : List CellState)
    (nbs : List Vec2i) :
    (nbs.length ≥ states.countP stateChanged * 9 →
      ∀ c, c ∈ (mergeResults active states nbs).2 ↔
        c ∈ active ∨ c ∈ nbs) ∧
    (nbs.length < states.countP stateChanged * 9 →
      ∀ c, c ∈ (mergeResults active states nbs).2 ↔
        c ∈ active ∨ ∃ st ∈ states, stateChanged st = true ∧
          ∃ o ∈ mooreOffsets, c = (⟨st.x, st.y⟩ : Vec2i) + o) ∧
    (∀ c, c ∈ (mergeResults active states nbs).1 ↔
      ∃ st ∈ states, st.willBeAlive = true ∧ c = ⟨st.x, st.y⟩) ∧
    (∀ nbs2, (mergeResults active states nbs).1 =
      (mergeResults active states nbs2).1) := by
  refine ⟨?_, ?_, ?_, ?_⟩
  · intro hlen c
    rw [mergeResults_def]
    simp only [mergeStates_count]
    rw [if_pos hlen, mem_foldl_insert, mem_foldl_insert]
    simp
  · intro hlen c
    rw [mergeResults_def]
    simp only [mergeStates_count]
    rw [if_neg (by omega), degraded_mem, mem_foldl_insert]
    simp
  · intro c
    rw [mergeResults_def]
    exact mem_mergeStates states c
  · intro nbs2
    rw [mergeResults_def, mergeResults_def]

/-- Witness for C5: one changed result; a 9-entry neighbor list is
trusted, an empty one triggers host-side reconstruction; the active
output is the same in both cases. -/
theorem claim_C5_witness :
    ((⟨7, 7⟩ : Vec2i) ∈
      (mergeResults [⟨5, 5⟩] [⟨0, 0, false, true⟩]
        [⟨7, 7⟩, ⟨1, 0⟩, ⟨2, 0⟩, ⟨3, 0⟩, ⟨4, 0⟩, ⟨5, 0⟩, ⟨6, 0⟩, ⟨7, 0⟩, ⟨8, 0⟩]).2) ∧
    ((⟨1, 1⟩ : Vec2i) ∈
      (mergeResults [⟨5, 5⟩] [⟨0, 0, false, true⟩] []).2) ∧
    ((⟨0, 0⟩ : Vec2i) ∈
      (mergeResults [⟨5, 5⟩] [⟨0, 0, false, true⟩] []).1) ∧
    (mergeResults [⟨5, 5⟩] [⟨0, 0, false, true⟩] []).1 =
      (mergeResults [⟨5, 5⟩] [⟨0, 0, false, true⟩] [⟨9, 9⟩]).1 := by
  have h := claim_C5 [⟨5, 5⟩] [⟨0, 0, false, true⟩]
  refine ⟨?_, ?_, ?_, (h []).2.2.2 [⟨9, 9⟩]⟩
  · exact ((h _).1 (by decide) ⟨7, 7⟩).mpr (Or.inr (by decide))
  · exact ((h []).2.1 (by decide) ⟨1, 1⟩).mpr
      (Or.inr ⟨⟨0, 0, false, true⟩, by decide, by decide,
        ⟨1, 1⟩, by decide, by decide⟩)
  · exact ((h []).2.2.1 ⟨0, 0⟩).mpr ⟨⟨0, 0, false, true⟩, by decide, rfl, rfl⟩

/-- The only error strings `EnsureBuffers` can produce. -/
theorem ensureBuffers_error_mem {env : GpuEnv} {s : ProcState}
    {te pe : Nat} {e : String} {s2 : ProcState}
    (h : EnsureBuffers env s te pe = (Except.error e, s2)) :
    e = "Failed to allocate hash table buffer" ∨
    e = "Failed to allocate potential cell buffer" ∨
    e = "Failed to allocate output buffer" ∨
    e = "Failed to allocate neighbor buffer" ∨
    e = "Failed to allocate neighbor count buffer" := by
  have hone : ∀ nb cap ok msg e2,
      ensureOneBuffer nb cap ok msg = Except.error e2 → e2 = msg := by
    intro nb cap ok msg e2 h2
    unfold ensureOneBuffer at h2
    split at h2
    · split at h2
      · exact absurd h2 (by simp)
      · injection h2 with h3
        exact h3.symm
    · exact absurd h2 (by simp)
  unfold EnsureBuffers at h
  dsimp only at h
  repeat' (first | split at h | dsimp only at h)
  all_goals
    have hfst := congrArg Prod.fst h
  all_goals
    dsimp only at hfst
  all_goals
    first
      | (injection hfst with he
         rw [← he]
         first
           | simp
           | (rename_i heb
              rw [hone _ _ _ _ _ heb]
              simp))
      | injection hfst

/-- Claim C7: the GPU step sizes its hash table as the smallest power
of two at least `2 × |active|` (minimum 1 when the active set is
empty), and — with the pipeline up, a clean dispatch and a nonempty
in-range potential list — `CalculateNextGenerationRaw` fails with the
encoding error exactly when the active-cell count exceeds `2^23`
(table size above `2^24` entries). -/
theorem claim_C7 (n : Nat) :
    (n ≤ 2 ^ 23 →
      (∃ j, desiredTableSize n = 2 ^ j) ∧
      max 1 (n * 2) ≤ desiredTableSize n ∧
      (∀ j, max 1 (n * 2) ≤ 2 ^ j → desiredTableSize n ≤ 2 ^ j) ∧
      desiredTableSize n ≤ 2 ^ 24) ∧
    ((desiredTableSize n = 0 ∨ desiredTableSize n > kMaxTableEntries) ↔
      2 ^ 23 < n) ∧
    (∀ (env : GpuEnv) (s : ProcState) (active potential : List Vec2i),
      active.length = n →
      potential.length ≠ 0 →
      ¬(potential.length > 4294967295) →
      (EnsurePipeline env s).1 = Except.ok () →
      env.commandFails = false →
      ((CalculateNextGenerationRaw env s active potential).1 =
          Except.error "Active cell count is too large for GPU hash table" ↔
        2 ^ 23 < n)) := by
  have h2423 : (2 : Nat) ^ 23 * 2 = 2 ^ 24 := by decide
  have h24big : (2 : Nat) ^ 24 = 16777216 := by decide
  have hmax23 : ∀ m : Nat, m ≤ 2 ^ 23 → max 1 (m * 2) ≤ 2 ^ 24 := by
    intro m hm
    have h1 : (1 : Nat) ≤ 2 ^ 24 := Nat.one_le_two_pow
    omega
  have hsmall : n ≤ 2 ^ 23 →
      (∃ j, desiredTableSize n = 2 ^ j) ∧
      max 1 (n * 2) ≤ desiredTableSize n ∧
      (∀ j, max 1 (n * 2) ≤ 2 ^ j → desiredTableSize n ≤ 2 ^ j) ∧
      desiredTableSize n ≤ 2 ^ 24 := by
    intro hn
    unfold desiredTableSize
    rcases Nat.lt_or_ge n 1 with h0 | h1
    · have hn0 : n = 0 := by omega
      subst hn0
      rw [nextPowerOfTwo_of_le_one (by simp)]
      refine ⟨⟨0, rfl⟩, by simp, ?_, ?_⟩
      · intro j hj
        exact Nat.one_le_two_pow
      · exact two_pow_pos 24
    · have hge : 2 ≤ max 1 (n * 2) := by omega
      have hlt63 : max 1 (n * 2) < 2 ^ 63 := by
        have : (2 : Nat) ^ 24 < 2 ^ 63 := Nat.pow_lt_pow_right (by omega) (by omega)
        omega
      refine ⟨nextPowerOfTwo_pow ?_, nextPowerOfTwo_ge hge hlt63,
        fun j hj => nextPowerOfTwo_least hge hlt63 hj, ?_⟩
      · have := nextPowerOfTwo_ge hge hlt63
        omega
      · exact nextPowerOfTwo_least hge hlt63 (hmax23 n hn)
  have hiff : (desiredTableSize n = 0 ∨ desiredTableSize n > kMaxTableEntries) ↔
      2 ^ 23 < n := by
    constructor
    · intro h
      by_contra hle
      push_neg at hle
      obtain ⟨-, hge2, -, hcap⟩ := hsmall hle
      unfold kMaxTableEntries at h
      omega
    · intro hgt
      unfold desiredTableSize
      rcases Nat.lt_or_ge (max 1 (n * 2)) (2 ^ 63) with h63 | h63
      · right
        have hge : 2 ≤ max 1 (n * 2) := by
          have := two_pow_pos 23
          omega
        have hgeval := nextPowerOfTwo_ge hge h63
        unfold kMaxTableEntries
        omega
      · left
        exact nextPowerOfTwo_of_big (by omega)
  refine ⟨hsmall, hiff, ?_⟩
  intro env s active potential hlen hpot hpot32 hpipe hcf
  subst hlen
  unfold CalculateNextGenerationRaw
  rw [if_neg hpot32]
  rcases hEP : EnsurePipeline env s with ⟨pr, s1⟩
  rw [hEP] at hpipe
  cases pr with
  | error e => exact absurd hpipe (by simp)
  | ok u =>
    dsimp only
    rw [if_neg hpot]
    by_cases hbig : NextPowerOfTwo (max 1 (active.length * 2)) = 0 ∨
        NextPowerOfTwo (max 1 (active.length * 2)) > kMaxTableEntries
    · rw [if_pos hbig]
      dsimp only
      constructor
      · intro _
        rw [← hiff]
        exact hbig
      · intro _
        rfl
    · rw [if_neg hbig]
      have hnot : ¬(2 ^ 23 < active.length) := by
        rw [← hiff]
        exact hbig
      constructor
      · intro herr
        exfalso
        revert herr
        cases hPT : PopulateHashTable active
            (List.replicate (NextPowerOfTwo (max 1 (active.length * 2)))
              emptyEntry) with
        | none =>
          dsimp only
          intro herr
          simp at herr
        | some table =>
          dsimp only
          rcases hEB : EnsureBuffers env s1
              (NextPowerOfTwo (max 1 (active.length * 2)))
              potential.length with ⟨br, s2⟩
          cases br with
          | error e2 =>
            dsimp only
            intro herr
            have he2 : e2 = "Active cell count is too large for GPU hash table" := by
              simpa using herr
            rcases ensureBuffers_error_mem hEB with h | h | h | h | h <;>
              simp [h] at he2
          | ok u2 =>
            dsimp only
            rw [hcf]
            by_cases hcb : env.commandBufferOk = false
            · rw [if_pos hcb]
              intro herr
              simp at herr
            · rw [if_neg hcb]
              by_cases hen : env.encoderOk = false
              · rw [if_pos hen]
                intro herr
                simp at herr
              · rw [if_neg hen]
                intro herr
                simp at herr
      · intro h
        exact absurd h hnot

/-- An environment in which every Metal API call succeeds. -/
def envAllOk : GpuEnv :=
  { deviceOk := true, queueOk := true, metallibFound := true,
    libraryLoadFails := false, libraryNsError := none,
    functionFound := true, pipelineStateFails := false, pipelineNsError := none,
    paramBufferOk := true, tableBufferOk := true, potentialBufferOk := true,
    outputBufferOk := true, neighborBufferOk := true,
    neighborCountBufferOk := true, commandBufferOk := true, encoderOk := true,
    commandFails := false, commandErrorMsg := "", oobNeighbor := ⟨0, 0⟩,
    staleNeighborData := [] }

/-- Witness for C7: two active cells give a 4-slot table and no
encoding failure. -/
theorem claim_C7_witness :
    desiredTableSize 2 = 4 ∧
    max 1 (2 * 2) ≤ desiredTableSize 2 ∧
    (CalculateNextGenerationRaw envAllOk initialProcState
        [⟨5, 5⟩, ⟨6, 6⟩] [⟨0, 0⟩]).1 ≠
      Except.error "Active cell count is too large for GPU hash table" := by
  have h := claim_C7 2
  refine ⟨by decide, (h.1 (by decide)).2.1, ?_⟩
  intro hcontra
  have hgt := (h.2.2 envAllOk initialProcState [⟨5, 5⟩, ⟨6, 6⟩] [⟨0, 0⟩]
    (by decide) (by decide) (by decide) (by rfl) rfl).mp hcontra
  exact absurd hgt (by decide)

/-- Claim C10: with the pipeline up and an empty potential list, the
raw step succeeds with `usedGPU` and no dispatch, returning empty
result and neighbor lists, so the merged `nextActive` is empty and
`nextPotential` equals the input active set. -/
theorem claim_C10 (env : GpuEnv) (s : ProcState)
    (active prevNA prevNP : List Vec2i)
    (hpipe : (EnsurePipeline env s).1 = Except.ok ()) :
    ((CalculateNextGenerationRaw env s active []).1 =
      Except.ok { results := [], neighborOutputs := [], dispatched := false,
                  neighborOverflow := false }) ∧
    (CalculateNextGeneration env s active [] prevNA prevNP).1.success = true ∧
    (CalculateNextGeneration env s active [] prevNA prevNP).1.usedGPU = true ∧
    (CalculateNextGeneration env s active [] prevNA prevNP).1.nextActive = [] ∧
    (∀ c, c ∈ (CalculateNextGeneration env s active [] prevNA
        prevNP).1.nextPotential ↔ c ∈ active) := by
  rcases hEP : EnsurePipeline env s with ⟨pr, s1⟩
  rw [hEP] at hpipe
  cases pr with
  | error e => exact absurd hpipe (by simp)
  | ok u =>
    have hraw : CalculateNextGenerationRaw env s active [] =
        (Except.ok { results := [], neighborOutputs := [], dispatched := false,
                     neighborOverflow := false }, s1) := by
      unfold CalculateNextGenerationRaw
      rw [if_neg (by simp), hEP]
      dsimp only
      rw [if_pos (by simp)]
    have hwrap : CalculateNextGeneration env s active [] prevNA prevNP =
        ({ success := true,
           nextActive := (mergeResults active [] []).1,
           nextPotential := (mergeResults active [] []).2,
           usedGPU := true, errorMessage := "" }, s1) := by
      unfold CalculateNextGeneration
      rw [hraw]
    refine ⟨by rw [hraw], by rw [hwrap], by rw [hwrap], ?_, ?_⟩
    · rw [hwrap]
      rfl
    · intro c
      rw [hwrap]
      show c ∈ (mergeResults active [] []).2 ↔ c ∈ active
      rw [mergeResults_def]
      rw [if_pos (by rw [mergeStates_count]; simp)]
      rw [mem_foldl_insert, mem_foldl_insert]
      simp

/-- Witness for C10 on a concrete two-cell active set. -/
theorem claim_C10_witness :
    (CalculateNextGeneration envAllOk initialProcState [⟨3, 4⟩, ⟨5, 6⟩] []
      [⟨9, 9⟩] [⟨8, 8⟩]).1.success = true ∧
    (CalculateNextGeneration envAllOk initialProcState [⟨3, 4⟩, ⟨5, 6⟩] []
      [⟨9, 9⟩] [⟨8, 8⟩]).1.nextActive = [] ∧
    ((⟨3, 4⟩ : Vec2i) ∈ (CalculateNextGeneration envAllOk initialProcState
      [⟨3, 4⟩, ⟨5, 6⟩] [] [⟨9, 9⟩] [⟨8, 8⟩]).1.nextPotential) := by
  have h := claim_C10 envAllOk initialProcState [⟨3, 4⟩, ⟨5, 6⟩] [⟨9, 9⟩]
    [⟨8, 8⟩] (by rfl)
  exact ⟨h.2.1, h.2.2.2.1, (h.2.2.2.2 ⟨3, 4⟩).mpr (by decide)⟩

/-- A successful raw step either took the empty-potential early exit or
computed its dense results by running the kernel model against a
successfully populated power-of-two hash table. -/
theorem raw_ok_results {env : GpuEnv} {s : ProcState}
    {active potential : List Vec2i} {r : RawSuccess} {s1 : ProcState}
    (h : CalculateNextGenerationRaw env s active potential =
      (Except.ok r, s1)) :
    (potential = [] ∧ r.results = []) ∨
    (∃ k t, PopulateHashTable active (List.replicate (2 ^ k) emptyEntry) =
        some t ∧
      r.results = kernelResults t (2 ^ k - 1) potential) := by
  unfold CalculateNextGenerationRaw at h
  by_cases h32 : potential.length > 4294967295
  · rw [if_pos h32] at h
    exact absurd (congrArg Prod.fst h) (by simp)
  · rw [if_neg h32] at h
    rcases hEP : EnsurePipeline env s with ⟨pr, sp⟩
    rw [hEP] at h
    cases pr with
    | error e =>
      dsimp only at h
      exact absurd (congrArg Prod.fst h) (by simp)
    | ok u =>
      dsimp only at h
      by_cases hemp : potential.length = 0
      · rw [if_pos hemp] at h
        left
        have hfst := congrArg Prod.fst h
        dsimp only at hfst
        injection hfst with hr
        exact ⟨List.length_eq_zero.mp hemp, by rw [← hr]⟩
      · rw [if_neg hemp] at h
        by_cases hbig : NextPowerOfTwo (max 1 (active.length * 2)) = 0 ∨
            NextPowerOfTwo (max 1 (active.length * 2)) > kMaxTableEntries
        · rw [if_pos hbig] at h
          exact absurd (congrArg Prod.fst h) (by simp)
        · rw [if_neg hbig] at h
          have hne0 : NextPowerOfTwo (max 1 (active.length * 2)) ≠ 0 := by
            intro h0
            exact hbig (Or.inl h0)
          obtain ⟨k, hk⟩ := nextPowerOfTwo_pow hne0
          rw [hk] at h
          cases hPT : PopulateHashTable active
              (List.replicate (2 ^ k) emptyEntry) with
          | none =>
            rw [hPT] at h
            dsimp only at h
            exact absurd (congrArg Prod.fst h) (by simp)
          | some table =>
            rw [hPT] at h
            dsimp only at h
            rcases hEB : EnsureBuffers env sp (2 ^ k) potential.length
              with ⟨br, s2⟩
            rw [hEB] at h
            cases br with
            | error e =>
              dsimp only at h
              exact absurd (congrArg Prod.fst h) (by simp)
            | ok u2 =>
              dsimp only at h
              by_cases hcb : env.commandBufferOk = false
              · rw [if_pos hcb] at h
                exact absurd (congrArg Prod.fst h) (by simp)
              · rw [if_neg hcb] at h
                by_cases hen : env.encoderOk = false
                · rw [if_pos hen] at h
                  exact absurd (congrArg Prod.fst h) (by simp)
                · rw [if_neg hen] at h
                  by_cases hcf : env.commandFails = true
                  · rw [if_pos hcf] at h
                    exact absurd (congrArg Prod.fst h) (by simp)
                  · rw [if_neg hcf] at h
                    have hfst := congrArg Prod.fst h
                    dsimp only at hfst
                    injection hfst with hr
                    right
                    exact ⟨k, table, hPT, by rw [← hr]⟩

/-- Claim C1: whenever the GPU wrapper `CalculateNextGeneration`
succeeds, its `nextActive` set coincides (as a set) with the CPU
reference engine's next active set on the same `(active, potential)`
input — over all inputs, which covers every Conway classification case. -/
theorem claim_C1 (env : GpuEnv) (s : ProcState)
    (active potential prevNA prevNP : List Vec2i)
    (hsucc : (CalculateNextGeneration env s active potential prevNA
      prevNP).1.success = true) (c : Vec2i) :
    (c ∈ (CalculateNextGeneration env s active potential prevNA
        prevNP).1.nextActive) ↔
      c ∈ (calculateNextGeneration ⟨active, potential⟩).active := by
  rcases hR : CalculateNextGenerationRaw env s active potential with ⟨res, s1⟩
  cases res with
  | error e =>
    unfold CalculateNextGeneration at hsucc
    rw [hR] at hsucc
    exact absurd hsucc (by simp)
  | ok r =>
    have hna : (CalculateNextGeneration env s active potential prevNA
        prevNP).1.nextActive =
        (mergeResults active r.results r.neighborOutputs).1 := by
      unfold CalculateNextGeneration
      rw [hR]
    rw [hna, mergeResults_def, mem_mergeStates, mem_calc_active]
    rcases raw_ok_results hR with ⟨hpe, hres⟩ | ⟨k, t, hPT, hres⟩
    · subst hpe
      rw [hres]
      simp
    · rw [hres]
      have hIA : ∀ d : Vec2i, is_alive t (2 ^ k - 1) d = decide (d ∈ active) := by
        intro d
        by_cases hd : d ∈ active
        · simp only [hd, decide_True]
          exact (populate_is_alive_iff hPT d).mpr hd
        · simp only [hd, decide_False]
          rw [Bool.eq_false_iff]
          intro htrue
          exact hd ((populate_is_alive_iff hPT d).mp htrue)
      have hcnt : ∀ p : Vec2i,
          kNeighborOffsets.countP (fun d => is_alive t (2 ^ k - 1) (p + d)) =
            countLivingNeighbors active p := by
        intro p
        unfold countLivingNeighbors
        apply List.countP_congr
        intro o ho
        rw [hIA]
      have hwb : ∀ p : Vec2i,
          (lifeStepCell t (2 ^ k - 1) p).willBeAlive = classify active p := by
        intro p
        show lifeRule (is_alive t (2 ^ k - 1) p)
            (kNeighborOffsets.countP (fun d => is_alive t (2 ^ k - 1) (p + d))) =
          classify active p
        rw [hIA p, hcnt p]
        rfl
      unfold kernelResults
      constructor
      · rintro ⟨st, hst, hwill, hc⟩
        rw [List.mem_map] at hst
        obtain ⟨p, hp, hstp⟩ := hst
        subst hstp
        have hcp : c = p := hc
        rw [hwb p] at hwill
        rw [hcp]
        exact ⟨hp, hwill⟩
      · rintro ⟨hp, hcl⟩
        refine ⟨lifeStepCell t (2 ^ k - 1) c,
          List.mem_map.mpr ⟨c, hp, rfl⟩, ?_, rfl⟩
        rw [hwb c]
        exact hcl

/-- Witness for C1: the full GPU model and the CPU engine agree on a
blinker (covering birth, survival and death cases). -/
theorem claim_C1_witness :
    (CalculateNextGeneration envAllOk initialProcState
        [⟨0, 0⟩, ⟨1, 0⟩, ⟨2, 0⟩]
        (mooreClosure [⟨0, 0⟩, ⟨1, 0⟩, ⟨2, 0⟩]) [] []).1.success = true ∧
    ((⟨1, 1⟩ : Vec2i) ∈ (CalculateNextGeneration envAllOk initialProcState
        [⟨0, 0⟩, ⟨1, 0⟩, ⟨2, 0⟩]
        (mooreClosure [⟨0, 0⟩, ⟨1, 0⟩, ⟨2, 0⟩]) [] []).1.nextActive) ∧
    ¬((⟨0, 0⟩ : Vec2i) ∈ (CalculateNextGeneration envAllOk initialProcState
        [⟨0, 0⟩, ⟨1, 0⟩, ⟨2, 0⟩]
        (mooreClosure [⟨0, 0⟩, ⟨1, 0⟩, ⟨2, 0⟩]) [] []).1.nextActive) := by
  have hsucc : (CalculateNextGeneration envAllOk initialProcState
      [⟨0, 0⟩, ⟨1, 0⟩, ⟨2, 0⟩]
      (mooreClosure [⟨0, 0⟩, ⟨1, 0⟩, ⟨2, 0⟩]) [] []).1.success = true := by
    decide
  refine ⟨hsucc, ?_, ?_⟩
  · exact (claim_C1 envAllOk initialProcState [⟨0, 0⟩, ⟨1, 0⟩, ⟨2, 0⟩]
      (mooreClosure [⟨0, 0⟩, ⟨1, 0⟩, ⟨2, 0⟩]) [] [] hsucc ⟨1, 1⟩).mpr
      (by decide)
  · intro hmem
    exact absurd ((claim_C1 envAllOk initialProcState [⟨0, 0⟩, ⟨1, 0⟩, ⟨2, 0⟩]
      (mooreClosure [⟨0, 0⟩, ⟨1, 0⟩, ⟨2, 0⟩]) [] [] hsucc ⟨0, 0⟩).mp hmem)
      (by decide)

-- ### error propagation (claim C8)

theorem error_pair_msg {γ β : Type} {e1 e : String} {x y : β}
    (h : ((Except.error e1 : Except String γ), x) = (Except.error e, y)) :
    e = e1 := by
  have hfst := congrArg Prod.fst h
  injection hfst with h2
  exact h2.symm

theorem ok_pair_ne_error {γ β : Type} {a : γ} {e : String} {x y : β}
    (h : ((Except.ok a : Except String γ), x) = (Except.error e, y)) :
    False := by
  have hfst := congrArg Prod.fst h
  injection hfst

theorem ensureDevice_error_nonempty {env : GpuEnv} {s : ProcState}
    {e : String} {s1 : ProcState}
    (h : EnsureDevice env s = (Except.error e, s1)) : e ≠ "" := by
  unfold EnsureDevice at h
  split at h
  · exact absurd (ok_pair_ne_error h) (by simp)
  · rw [error_pair_msg h]
    split
    · simp
    · rename_i hne
      exact hne

theorem ensurePipeline_error_nonempty {env : GpuEnv} {s : ProcState}
    {e : String} {s1 : ProcState}
    (hlib : ∀ d, env.libraryNsError = some d → d ≠ "")
    (hpipe : ∀ d, env.pipelineNsError = some d → d ≠ "")
    (h : EnsurePipeline env s = (Except.error e, s1)) : e ≠ "" := by
  unfold EnsurePipeline at h
  by_cases hP : s.hasPipeline
  · rw [if_pos hP] at h
    exact absurd (ok_pair_ne_error h) (by simp)
  · rw [if_neg hP] at h
    rcases hED : EnsureDevice env s with ⟨dr, sd⟩
    rw [hED] at h
    cases dr with
    | error e2 =>
      rw [error_pair_msg h]
      exact ensureDevice_error_nonempty hED
    | ok u =>
      dsimp only at h
      by_cases hm : env.metallibFound = false
      · rw [if_pos hm] at h
        rw [error_pair_msg h]
        simp
      · rw [if_neg hm] at h
        by_cases hl : env.libraryLoadFails = true
        · rw [if_pos hl] at h
          rw [error_pair_msg h]
          cases hns : env.libraryNsError with
          | some d =>
            exact hlib d hns
          | none =>
            simp
        · rw [if_neg hl] at h
          by_cases hf : env.functionFound = false
          · rw [if_pos hf] at h
            rw [error_pair_msg h]
            simp
          · rw [if_neg hf] at h
            by_cases hp2 : env.pipelineStateFails = true
            · rw [if_pos hp2] at h
              rw [error_pair_msg h]
              cases hns : env.pipelineNsError with
              | some d =>
                exact hpipe d hns
              | none =>
                simp
            · rw [if_neg hp2] at h
              split at h
              · exact absurd (ok_pair_ne_error h) (by simp)
              · split at h
                · rw [error_pair_msg h]
                  simp
                · exact absurd (ok_pair_ne_error h) (by simp)

theorem ensureBuffers_error_nonempty {env : GpuEnv} {s : ProcState}
    {te pe : Nat} {e : String} {s2 : ProcState}
    (h : EnsureBuffers env s te pe = (Except.error e, s2)) : e ≠ "" := by
  rcases ensureBuffers_error_mem h with h2 | h2 | h2 | h2 | h2 <;>
    rw [h2] <;> simp

/-- The amended non-emptiness condition on API-supplied descriptions. -/
def apiMessagesNonEmpty (env : GpuEnv) : Prop :=
  (∀ d, env.libraryNsError = some d → d ≠ "") ∧
  (∀ d, env.pipelineNsError = some d → d ≠ "") ∧
  (env.commandFails = true → env.commandErrorMsg ≠ "")

theorem raw_error_nonempty {env : GpuEnv} {s : ProcState}
    {active potential : List Vec2i} {e : String} {s1 : ProcState}
    (henv : apiMessagesNonEmpty env)
    (h : CalculateNextGenerationRaw env s active potential =
      (Except.error e, s1)) : e ≠ "" := by
  unfold CalculateNextGenerationRaw at h
  by_cases h32 : potential.length > 4294967295
  · rw [if_pos h32] at h
    rw [error_pair_msg h]
    simp
  · rw [if_neg h32] at h
    rcases hEP : EnsurePipeline env s with ⟨pr, sp⟩
    rw [hEP] at h
    cases pr with
    | error e2 =>
      rw [error_pair_msg h]
      exact ensurePipeline_error_nonempty henv.1 henv.2.1 hEP
    | ok u =>
      dsimp only at h
      by_cases hemp : potential.length = 0
      · rw [if_pos hemp] at h
        exact absurd (ok_pair_ne_error h) (by simp)
      · rw [if_neg hemp] at h
        by_cases hbig : NextPowerOfTwo (max 1 (active.length * 2)) = 0 ∨
            NextPowerOfTwo (max 1 (active.length * 2)) > kMaxTableEntries
        · rw [if_pos hbig] at h
          rw [error_pair_msg h]
          simp
        · rw [if_neg hbig] at h
          cases hPT : PopulateHashTable active
              (List.replicate (NextPowerOfTwo (max 1 (active.length * 2)))
                emptyEntry) with
          | none =>
            rw [hPT] at h
            dsimp only at h
            rw [error_pair_msg h]
            simp
          | some table =>
            rw [hPT] at h
            dsimp only at h
            rcases hEB : EnsureBuffers env sp
                (NextPowerOfTwo (max 1 (active.length * 2)))
                potential.length with ⟨br, s2⟩
            rw [hEB] at h
            cases br with
            | error e2 =>
              rw [error_pair_msg h]
              exact ensureBuffers_error_nonempty hEB
            | ok u2 =>
              dsimp only at h
              by_cases hcb : env.commandBufferOk = false
              · rw [if_pos hcb] at h
                rw [error_pair_msg h]
                simp
              · rw [if_neg hcb] at h
                by_cases hen : env.encoderOk = false
                · rw [if_pos hen] at h
                  rw [error_pair_msg h]
                  simp
                · rw [if_neg hen] at h
                  by_cases hcf : env.commandFails = true
                  · rw [if_pos hcf] at h
                    rw [error_pair_msg h]
                    exact henv.2.2 hcf
                  · rw [if_neg hcf] at h
                    exact absurd (ok_pair_ne_error h) (by simp)

/-- An environment where the command buffer fails and the Metal API
reports an empty `localizedDescription`, as `ToStdString` produces for a
nil or empty NSString. -/
def envCmdFailEmpty : GpuEnv :=
  { envAllOk with commandFails := true, commandErrorMsg := "" }

/-- An environment in which no Metal device can be created. -/
def envNoDevice : GpuEnv :=
  { envAllOk with deviceOk := false }

/-- Counterexample to C8 as stated: when the command buffer fails and
the API's `localizedDescription` converts to the empty string, the step
fails with an EMPTY error string, contradicting the claim that the
returned error string is non-empty for every failure cause. -/
theorem claim_C8_counterexample :
    (CalculateNextGeneration envCmdFailEmpty initialProcState
        [⟨0, 0⟩] [⟨0, 0⟩] [⟨7, 7⟩] [⟨8, 8⟩]).1.success = false ∧
    (CalculateNextGeneration envCmdFailEmpty initialProcState
        [⟨0, 0⟩] [⟨0, 0⟩] [⟨7, 7⟩] [⟨8, 8⟩]).1.errorMessage = "" := by
  decide

/-- Claim C8 (amended): whenever the step fails, `usedGPU` is false and
the caller's `nextActive`/`nextPotential` are untouched; and provided
every API-supplied description string (NSError localizedDescription for
library load, pipeline creation and command-buffer failure) is
non-empty, the returned error string is non-empty. -/
theorem claim_C8_amended (env : GpuEnv) (s : ProcState)
    (active potential prevNA prevNP : List Vec2i)
    (henv : apiMessagesNonEmpty env)
    (hfail : (CalculateNextGeneration env s active potential prevNA
      prevNP).1.success = false) :
    (CalculateNextGeneration env s active potential prevNA
      prevNP).1.errorMessage ≠ "" ∧
    (CalculateNextGeneration env s active potential prevNA
      prevNP).1.usedGPU = false ∧
    (CalculateNextGeneration env s active potential prevNA
      prevNP).1.nextActive = prevNA ∧
    (CalculateNextGeneration env s active potential prevNA
      prevNP).1.nextPotential = prevNP := by
  unfold CalculateNextGeneration at hfail ⊢
  rcases hR : CalculateNextGenerationRaw env s active potential with ⟨r, s1⟩
  rw [hR] at hfail
  cases r with
  | ok v =>
    dsimp only at hfail
    exact absurd hfail (by simp)
  | error e =>
    exact ⟨raw_error_nonempty henv hR, rfl, rfl, rfl⟩

/-- Witness for the amended C8 at a concrete failing environment. -/
theorem claim_C8_witness :
    (CalculateNextGeneration envNoDevice initialProcState
        [⟨0, 0⟩] [⟨0, 0⟩] [⟨7, 7⟩] [⟨8, 8⟩]).1.errorMessage ≠ "" ∧
    (CalculateNextGeneration envNoDevice initialProcState
        [⟨0, 0⟩] [⟨0, 0⟩] [⟨7, 7⟩] [⟨8, 8⟩]).1.usedGPU = false ∧
    (CalculateNextGeneration envNoDevice initialProcState
        [⟨0, 0⟩] [⟨0, 0⟩] [⟨7, 7⟩] [⟨8, 8⟩]).1.nextActive = [⟨7, 7⟩] ∧
    (CalculateNextGeneration envNoDevice initialProcState
        [⟨0, 0⟩] [⟨0, 0⟩] [⟨7, 7⟩] [⟨8, 8⟩]).1.nextPotential = [⟨8, 8⟩] :=
  claim_C8_amended envNoDevice initialProcState [⟨0, 0⟩] [⟨0, 0⟩]
    [⟨7, 7⟩] [⟨8, 8⟩]
    ⟨fun d hd => by simp [envNoDevice, envAllOk] at hd,
     fun d hd => by simp [envNoDevice, envAllOk] at hd,
     fun hcf => by simp [envNoDevice, envAllOk] at hcf⟩
    (by decide)

-- ### once-per-process device acquisition (claim C9)

/-- The device-acquisition fields of the process state: the once-flag,
the cached verdict, the cached error string and the attempt counter. -/
def devFields (s : ProcState) : Bool × Bool × String × Nat :=
  (s.initAttempted, s.deviceAvailable, s.initError, s.deviceAttempts)

/-- `call_once` invariant: the body has run exactly once iff the flag
is set. -/
def devInv (s : ProcState) : Prop :=
  s.deviceAttempts = if s.initAttempted then 1 else 0

theorem runDeviceInit_of_attempted (env : GpuEnv) (s : ProcState)
    (h : s.initAttempted = true) : runDeviceInit env s = s := by
  unfold runDeviceInit
  rw [if_pos h]

theorem devInv_runDeviceInit (env : GpuEnv) (s : ProcState)
    (h : devInv s) : devInv (runDeviceInit env s) := by
  unfold devInv runDeviceInit at *
  split
  · rename_i ha
    rw [h, if_pos ha]
  · rename_i hna
    have h0 : s.deviceAttempts = 0 := by
      rw [h, if_neg hna]
    dsimp only
    split
    · simp [h0]
    · split <;> simp [h0]

theorem ensureDevice_snd (env : GpuEnv) (s : ProcState) :
    (EnsureDevice env s).2 = runDeviceInit env s := by
  unfold EnsureDevice
  split <;> rfl

theorem devFields_runDeviceInit (env : GpuEnv) (s : ProcState)
    (h : devInv s) :
    devInv (runDeviceInit env s) ∧
    (s.initAttempted = true → devFields (runDeviceInit env s) = devFields s) :=
  ⟨devInv_runDeviceInit env s h,
   fun ha => by rw [runDeviceInit_of_attempted env s ha]⟩

theorem ensurePipeline_devFields (env : GpuEnv) (s : ProcState) :
    devFields (EnsurePipeline env s).2 = devFields s ∨
    devFields (EnsurePipeline env s).2 = devFields (runDeviceInit env s) := by
  unfold EnsurePipeline
  by_cases hP : s.hasPipeline
  · rw [if_pos hP]
    left
    rfl
  · rw [if_neg hP]
    rcases hED : EnsureDevice env s with ⟨dr, sd⟩
    have hsd : sd = runDeviceInit env s := by
      have h2 := ensureDevice_snd env s
      rw [hED] at h2
      exact h2
    right
    rw [← hsd]
    cases dr with
    | error e => rfl
    | ok u =>
      dsimp only
      repeat' (first | split | dsimp only)
      all_goals rfl

theorem ensureBuffers_devFields (env : GpuEnv) (s : ProcState)
    (te pe : Nat) :
    devFields (EnsureBuffers env s te pe).2 = devFields s := by
  unfold EnsureBuffers
  repeat' (first | split | dsimp only)
  all_goals rfl

theorem raw_devFields (env : GpuEnv) (s : ProcState)
    (active potential : List Vec2i) :
    devFields (CalculateNextGenerationRaw env s active potential).2 =
      devFields s ∨
    devFields (CalculateNextGenerationRaw env s active potential).2 =
      devFields (runDeviceInit env s) := by
  unfold CalculateNextGenerationRaw
  by_cases h32 : potential.length > 4294967295
  · rw [if_pos h32]
    left
    rfl
  · rw [if_neg h32]
    rcases hEP : EnsurePipeline env s with ⟨pr, sp⟩
    have hsp : devFields sp = devFields s ∨
        devFields sp = devFields (runDeviceInit env s) := by
      have h2 := ensurePipeline_devFields env s
      rw [hEP] at h2
      exact h2
    cases pr with
    | error e => exact hsp
    | ok u =>
      dsimp only
      by_cases hemp : potential.length = 0
      · rw [if_pos hemp]
        exact hsp
      · rw [if_neg hemp]
        by_cases hbig : NextPowerOfTwo (max 1 (active.length * 2)) = 0 ∨
            NextPowerOfTwo (max 1 (active.length * 2)) > kMaxTableEntries
        · rw [if_pos hbig]
          exact hsp
        · rw [if_neg hbig]
          cases hPT : PopulateHashTable active
              (List.replicate (NextPowerOfTwo (max 1 (active.length * 2)))
                emptyEntry) with
          | none => exact hsp
          | some table =>
            dsimp only
            rcases hEB : EnsureBuffers env sp
                (NextPowerOfTwo (max 1 (active.length * 2)))
                potential.length with ⟨br, s2⟩
            have hs2 : devFields s2 = devFields sp := by
              have h2 := ensureBuffers_devFields env sp
                (NextPowerOfTwo (max 1 (active.length * 2))) potential.length
              rw [hEB] at h2
              exact h2
            cases br with
            | error e =>
              rw [hs2]
              exact hsp
            | ok u2 =>
              dsimp only
              repeat' (first | split | dsimp only)
              all_goals rw [hs2]
              all_goals exact hsp

theorem step_snd (env : GpuEnv) (s : ProcState)
    (active potential prevNA prevNP : List Vec2i) :
    (CalculateNextGeneration env s active potential prevNA prevNP).2 =
      (CalculateNextGenerationRaw env s active potential).2 := by
  unfold CalculateNextGeneration
  rcases hR : CalculateNextGenerationRaw env s active potential with ⟨r, s1⟩
  cases r <;> rfl

theorem isAvailable_snd (env : GpuEnv) (s : ProcState) :
    (IsAvailable env s).2 = runDeviceInit env s := by
  unfold IsAvailable
  rcases hED : EnsureDevice env s with ⟨dr, sd⟩
  have h2 := ensureDevice_snd env s
  rw [hED] at h2
  cases dr <;> exact h2

theorem isEnabled_snd (env : GpuEnv) (s : ProcState) :
    (IsEnabled env s).2 = s ∨ (IsEnabled env s).2 = runDeviceInit env s := by
  unfold IsEnabled
  by_cases hr : s.requested = false
  · rw [if_pos hr]
    left
    rfl
  · rw [if_neg hr]
    right
    rcases hED : EnsureDevice env s with ⟨dr, sd⟩
    have h2 := ensureDevice_snd env s
    rw [hED] at h2
    cases dr <;> exact h2

/-- One call into the public GPU-calculator surface: availability and
enablement queries, the enable toggle, the explicit cache reset, and a
full generation step. -/
inductive GpuOp where
  | avail (env : GpuEnv)
  | enabled (env : GpuEnv)
  | setOn (b : Bool)
  | reset
  | step (env : GpuEnv) (active potential prevNA prevNP : List Vec2i)

/-- The process-state effect of one public call. -/
def runOp (s : ProcState) : GpuOp → ProcState
  | GpuOp.avail env => (IsAvailable env s).2
  | GpuOp.enabled env => (IsEnabled env s).2
  | GpuOp.setOn b => SetEnabled b s
  | GpuOp.reset => ResetCaches s
  | GpuOp.step env a p na np => (CalculateNextGeneration env s a p na np).2

/-- The process-state effect of a call sequence. -/
def runOps (ops : List GpuOp) (s : ProcState) : ProcState :=
  ops.foldl runOp s

theorem runOp_devFields (s : ProcState) (op : GpuOp) :
    devFields (runOp s op) = devFields s ∨
    ∃ env, devFields (runOp s op) = devFields (runDeviceInit env s) := by
  cases op with
  | avail env =>
    right
    refine ⟨env, ?_⟩
    show devFields (IsAvailable env s).2 = devFields (runDeviceInit env s)
    rw [isAvailable_snd]
  | enabled env =>
    rcases isEnabled_snd env s with h | h
    · left
      show devFields (IsEnabled env s).2 = devFields s
      rw [h]
    · right
      refine ⟨env, ?_⟩
      show devFields (IsEnabled env s).2 = devFields (runDeviceInit env s)
      rw [h]
  | setOn b =>
    left
    rfl
  | reset =>
    left
    rfl
  | step env a p na np =>
    rcases raw_devFields env s a p with h | h
    · left
      show devFields (CalculateNextGeneration env s a p na np).2 = devFields s
      rw [step_snd]
      exact h
    · right
      refine ⟨env, ?_⟩
      show devFields (CalculateNextGeneration env s a p na np).2 =
        devFields (runDeviceInit env s)
      rw [step_snd]
      exact h

theorem devInv_of_fields {a b : ProcState} (h : devFields a = devFields b)
    (hb : devInv b) : devInv a := by
  unfold devFields at h
  unfold devInv at *
  injection h with h1 h2
  injection h2 with h2 h3
  injection h3 with h3 h4
  rw [h1, h4]
  exact hb

theorem devInv_runOp (s : ProcState) (op : GpuOp) (h : devInv s) :
    devInv (runOp s op) := by
  rcases runOp_devFields s op with h2 | ⟨env, h2⟩
  · exact devInv_of_fields h2 h
  · exact devInv_of_fields h2 (devInv_runDeviceInit env s h)

theorem runOp_fields_of_attempted (s : ProcState) (op : GpuOp)
    (h : s.initAttempted = true) : devFields (runOp s op) = devFields s := by
  rcases runOp_devFields s op with h2 | ⟨env, h2⟩
  · exact h2
  · rw [h2, runDeviceInit_of_attempted env s h]

theorem devInv_runOps (ops : List GpuOp) :
    ∀ s : ProcState, devInv s → devInv (runOps ops s) := by
  induction ops with
  | nil => exact fun s h => h
  | cons op rest ih =>
    intro s h
    exact ih (runOp s op) (devInv_runOp s op h)

theorem fields_runOps_of_attempted (ops : List GpuOp) :
    ∀ s : ProcState, s.initAttempted = true →
      devFields (runOps ops s) = devFields s := by
  induction ops with
  | nil =>
    intro s h
    rfl
  | cons op rest ih =>
    intro s h
    have hf := runOp_fields_of_attempted s op h
    have ha : (runOp s op).initAttempted = true := by
      have h1 := congrArg Prod.fst hf
      exact h1.trans h
    calc devFields (runOps (op :: rest) s)
        = devFields (runOps rest (runOp s op)) := rfl
      _ = devFields (runOp s op) := ih (runOp s op) ha
      _ = devFields s := hf

/-- Counterexample to C9 as stated: after device acquisition fails
once, `ResetCaches` does NOT make a subsequent use retry it — the
`std::once_flag` is never re-armed, so even with a now-working device
`IsAvailable` still reports false and the acquisition-attempt counter
stays at 1. -/
theorem claim_C9_counterexample :
    (IsAvailable envNoDevice initialProcState).1 = false ∧
    (IsAvailable envAllOk (ResetCaches
        (IsAvailable envNoDevice initialProcState).2)).1 = false ∧
    (IsAvailable envAllOk (ResetCaches
        (IsAvailable envNoDevice initialProcState).2)).2.deviceAttempts = 1 := by
  decide

/-- Claim C9 (amended): across every sequence of public calls
(IsAvailable, IsEnabled, SetEnabled, ResetCaches, step), device
acquisition runs exactly once — the attempt counter equals 1 iff the
once-flag is set — and once it has run (in particular after a failure),
no later call, ResetCaches included, changes the cached verdict, the
cached error string or the attempt count. -/
theorem claim_C9_amended :
    (∀ ops : List GpuOp,
      (runOps ops initialProcState).deviceAttempts =
        if (runOps ops initialProcState).initAttempted then 1 else 0) ∧
    (∀ (ops : List GpuOp) (s : ProcState), s.initAttempted = true →
      (runOps ops s).initAttempted = true ∧
      (runOps ops s).deviceAvailable = s.deviceAvailable ∧
      (runOps ops s).initError = s.initError ∧
      (runOps ops s).deviceAttempts = s.deviceAttempts) := by
  constructor
  · intro ops
    exact devInv_runOps ops initialProcState (by unfold devInv; decide)
  · intro ops s h
    have hf := fields_runOps_of_attempted ops s h
    unfold devFields at hf
    injection hf with h1 h2
    injection h2 with h2 h3
    injection h3 with h3 h4
    exact ⟨h1.trans h, h2, h3, h4⟩

/-- Witness for the amended C9 on a concrete call sequence: a failed
availability probe, a cache reset, then another probe. -/
theorem claim_C9_witness :
    ((runOps [GpuOp.avail envNoDevice, GpuOp.reset, GpuOp.avail envAllOk]
        initialProcState).deviceAttempts =
      if (runOps [GpuOp.avail envNoDevice, GpuOp.reset,
            GpuOp.avail envAllOk] initialProcState).initAttempted
      then 1 else 0) ∧
    ((runOps [GpuOp.reset, GpuOp.avail envAllOk]
        (IsAvailable envNoDevice initialProcState).2).initAttempted = true ∧
     (runOps [GpuOp.reset, GpuOp.avail envAllOk]
        (IsAvailable envNoDevice initialProcState).2).deviceAvailable =
       (IsAvailable envNoDevice initialProcState).2.deviceAvailable ∧
     (runOps [GpuOp.reset, GpuOp.avail envAllOk]
        (IsAvailable envNoDevice initialProcState).2).initError =
       (IsAvailable envNoDevice initialProcState).2.initError ∧
     (runOps [GpuOp.reset, GpuOp.avail envAllOk]
        (IsAvailable envNoDevice initialProcState).2).deviceAttempts =
       (IsAvailable envNoDevice initialProcState).2.deviceAttempts) :=
  ⟨claim_C9_amended.1 [GpuOp.avail envNoDevice, GpuOp.reset,
      GpuOp.avail envAllOk],
   claim_C9_amended.2 [GpuOp.reset, GpuOp.avail envAllOk]
     (IsAvailable envNoDevice initialProcState).2 (by decide)⟩

-- ### kernel overflow-block accounting (claim C6)

theorem add_right_cancel_self (c d : Vec2i) : c + d = c ↔ d = ⟨0, 0⟩ := by
  cases c
  cases d
  simp [Vec2i.add_def, Vec2i.mk.injEq]

theorem kernelLane_spec (t : List HashEntry) (mask maxN : Nat)
    (oob : Vec2i) (acc : KernelAccum) (c : Vec2i) :
    (kernelLane t mask maxN oob acc c).counter =
      (if stateChanged (lifeStepCell t mask c) then acc.counter + 9
       else acc.counter) ∧
    (kernelLane t mask maxN oob acc c).written =
      (if stateChanged (lifeStepCell t mask c) = true ∧
          acc.counter + 9 ≤ maxN then
        acc.written ++ [(acc.counter, blockVals c oob)]
       else acc.written) := by
  unfold kernelLane stateChanged
  dsimp only
  by_cases h : ((lifeStepCell t mask c).wasAlive !=
      (lifeStepCell t mask c).willBeAlive) = true
  · rw [if_pos h, if_pos h]
    refine ⟨rfl, ?_⟩
    dsimp only
    by_cases h2 : acc.counter + 9 ≤ maxN
    · rw [if_pos h2, if_pos ⟨h, h2⟩]
    · rw [if_neg h2, if_neg (fun hc => h2 hc.2)]
  · rw [if_neg h, if_neg h, if_neg (fun hc => h hc.1)]
    exact ⟨rfl, rfl⟩

theorem kernelRun_counter_aux (t : List HashEntry) (mask maxN : Nat)
    (oob : Vec2i) (potential : List Vec2i) :
    ∀ acc : KernelAccum,
      (potential.foldl (kernelLane t mask maxN oob) acc).counter =
        acc.counter + 9 * (kernelResults t mask potential).countP stateChanged := by
  induction potential with
  | nil =>
    intro acc
    simp [kernelResults]
  | cons c cs ih =>
    intro acc
    rw [List.foldl_cons, ih]
    unfold kernelResults
    rw [List.map_cons, List.countP_cons]
    have hc := (kernelLane_spec t mask maxN oob acc c).1
    rw [hc]
    by_cases h : stateChanged (lifeStepCell t mask c) = true <;>
      simp only [h, if_pos, if_neg, if_true, if_false, Bool.false_eq_true,
        ite_true, ite_false] <;>
      omega

/-- Claim C6 (code bug): a lane advances the shared counter by 9 iff
its classification changed, writes its reserved block iff the block
ends within `maxNeighbors`, and the final counter is 9 times the number
of changed cells — but the written block is NOT "itself then its 8
neighbors": the write loop indexes `kNeighborOffsets[i]` for `i = 0..8`
over the 8-entry array, so the block holds the 8 neighbor coordinates
followed by `cell` plus an out-of-bounds garbage offset (modelled by
`oob`), and whenever that garbage offset is neither zero nor a neighbor
offset the cell itself is absent from the block. -/
theorem claim_C6 (t : List HashEntry) (mask maxN : Nat) (oob : Vec2i)
    (potential : List Vec2i) (c : Vec2i)
    (hoob : oob ∉ ((⟨0, 0⟩ : Vec2i) :: kNeighborOffsets)) :
    (∀ acc : KernelAccum,
      (kernelLane t mask maxN oob acc c).counter =
        (if stateChanged (lifeStepCell t mask c) then acc.counter + 9
         else acc.counter) ∧
      (kernelLane t mask maxN oob acc c).written =
        (if stateChanged (lifeStepCell t mask c) = true ∧
            acc.counter + 9 ≤ maxN then
          acc.written ++ [(acc.counter, blockVals c oob)]
         else acc.written)) ∧
    (kernelRun t mask maxN oob potential).counter =
      9 * (kernelResults t mask potential).countP stateChanged ∧
    (blockVals c oob).length = 9 ∧
    (blockVals c oob).take 8 = kNeighborOffsets.map (fun d => c + d) ∧
    (blockVals c oob).getD 8 c = c + oob ∧
    c ∉ blockVals c oob := by
  refine ⟨fun acc => kernelLane_spec t mask maxN oob acc c, ?_, ?_, ?_, ?_, ?_⟩
  · unfold kernelRun
    rw [kernelRun_counter_aux]
    simp
  · simp [blockVals]
  · rfl
  · rfl
  · intro hmem
    unfold blockVals at hmem
    rw [List.mem_map] at hmem
    obtain ⟨i, hi, heq⟩ := hmem
    rw [add_right_cancel_self] at heq
    rw [List.mem_range] at hi
    interval_cases i
    all_goals simp [kNeighborOffsets] at heq
    exact hoob (by simp [heq])

/-- Witness for C6 at a concrete garbage offset: the block written for
cell (0,0) covers 9 slots with slot 8 holding cell + garbage, and the
cell itself is absent. -/
theorem claim_C6_witness :
    (⟨5, 5⟩ : Vec2i) ∉ ((⟨0, 0⟩ : Vec2i) :: kNeighborOffsets) ∧
    (kernelRun [emptyEntry] 0 9 ⟨5, 5⟩ [⟨0, 0⟩]).counter =
      9 * (kernelResults [emptyEntry] 0 [⟨0, 0⟩]).countP stateChanged ∧
    (blockVals ⟨0, 0⟩ ⟨5, 5⟩).length = 9 ∧
    (blockVals ⟨0, 0⟩ ⟨5, 5⟩).getD 8 ⟨0, 0⟩ = (⟨0, 0⟩ : Vec2i) + ⟨5, 5⟩ ∧
    (⟨0, 0⟩ : Vec2i) ∉ blockVals ⟨0, 0⟩ ⟨5, 5⟩ := by
  have h := claim_C6 [emptyEntry] 0 9 ⟨5, 5⟩ [⟨0, 0⟩] ⟨0, 0⟩ (by decide)
  exact ⟨by decide, h.2.1, h.2.2.1, h.2.2.2.2.1, h.2.2.2.2.2⟩
